import Mathlib

/-!
# A verification development for the delta-tree partition-tree core

This file gives a shallow embedding of `src/tree/mod.rs` of the
`delta-tree` repository: the canonical parquet file-name codec
(`ParquetDeltaFile::from_string` / `ParquetDeltaFile::name`), the path
splitter (`DeltaTree::key_value`, `DeltaTree::parse_path`) and the
recursive partition-tree builder (`DeltaTree::from_paths`,
`DeltaTree::build_partition`) together with the flattening operation
(`DeltaTree::files`), and proves or refutes the stated properties of
that code.

Modelling conventions:
* Rust strings are modelled as `List Char` (`Str`).  Rust compares
  `&str` by UTF-8 bytes; UTF-8 byte order coincides with code-point
  order, which is the lexicographic order on `List Char` used here.
* machine integers (`u8`, `u32`, `u128`) are modelled as `Nat`; the
  overflow checks performed by Rust's `str::parse` are made explicit.
* a Rust `panic!` / failing `unwrap` / failing `assert` is modelled by
  an `Option` result of `none`.
* `HashMap<String, TreeNode>` is modelled as an association list in
  insertion order; `insert` replaces the value of an existing key in
  place, like `HashMap::insert`.
-/

namespace DeltaTreeModel

/-- Rust strings, modelled as lists of characters. -/
abbrev Str := List Char

/-! ## Digit and number formatting helpers

These model the numeric sub-parsers and formatters used by the codec:
`str::parse::<u32>` / `str::parse::<u8>` (decimal), `Uuid::parse_str`
(hexadecimal, case-insensitive) and the `{:05}` / `{:03}` zero-padded
decimal and 32-digit zero-padded lower-case hexadecimal formatting.
-/

/-- The character for a decimal digit value (`0 ≤ n ≤ 9` gives `'0'`-`'9'`). -/
def digitChar (n : Nat) : Char := Char.ofNat (48 + n)

/-- The character for a hexadecimal digit value, lower case as produced by
the canonical unique-identifier formatting. -/
def hexChar (n : Nat) : Char := if n < 10 then Char.ofNat (48 + n) else Char.ofNat (87 + n)

/-- Value of a decimal digit character. -/
def digitVal (c : Char) : Nat := c.toNat - 48

/-- Value of a hexadecimal digit character, case-insensitive. -/
def hexVal (c : Char) : Nat :=
  if 97 ≤ c.toNat then c.toNat - 87
  else if 65 ≤ c.toNat then c.toNat - 55
  else c.toNat - 48

/-- Decimal digit test (`\d` of the file-name pattern). -/
def isDigitB (c : Char) : Bool := decide (48 ≤ c.toNat) && decide (c.toNat ≤ 57)

/-- Hexadecimal digit test (`[0-9a-fA-F]` of the file-name pattern). -/
def isHexB (c : Char) : Bool :=
  isDigitB c || (decide (97 ≤ c.toNat) && decide (c.toNat ≤ 102))
    || (decide (65 ≤ c.toNat) && decide (c.toNat ≤ 70))

/-- Numeric value of a digit string in base `b`, most significant digit
first; this is the accumulation loop of `str::parse` and of
`Uuid::parse_str`. -/
def digitsToNat (b : Nat) (dv : Char → Nat) (ds : Str) : Nat :=
  ds.foldl (fun a c => a * b + dv c) 0

/-- Fuel-driven rendering of `n` in base `b`, most significant digit first.
The fuel only serves structural recursion; `natToDigits` supplies enough. -/
def toDigitsAux (b : Nat) (enc : Nat → Char) : Nat → Nat → Str
  | 0, _ => []
  | fuel + 1, n => if n < b then [enc n] else toDigitsAux b enc fuel (n / b) ++ [enc (n % b)]

/-- All digits of `n` in base `b`, as produced by Rust's `{}` formatting
(at least one digit, no leading zeros). -/
def natToDigits (b : Nat) (enc : Nat → Char) (n : Nat) : Str := toDigitsAux b enc (n + 1) n

/-- Left-pad with `'0'` to width `w`, as in Rust's `{:05}` / `{:03}` /
`{:032x}` format specifiers (numbers with more digits are not truncated). -/
def pad (w : Nat) (ds : Str) : Str := List.replicate (w - ds.length) '0' ++ ds

theorem digitsToNat_append (b : Nat) (dv : Char → Nat) (ds : Str) (c : Char) :
    digitsToNat b dv (ds ++ [c]) = b * digitsToNat b dv ds + dv c := by
  simp [digitsToNat, List.foldl_append, Nat.mul_comm]

theorem digitsToNat_lt (b : Nat) (dv : Char → Nat) (hb : 2 ≤ b) :
    ∀ ds : Str, (∀ c ∈ ds, dv c < b) → digitsToNat b dv ds < b ^ ds.length := by
  intro ds
  induction ds using List.reverseRecOn with
  | nil => intro _; simp [digitsToNat]
  | append_singleton ds c ih =>
    intro h
    rw [digitsToNat_append]
    have h1 : digitsToNat b dv ds < b ^ ds.length := ih fun x hx => h x (by simp [hx])
    have h2 : dv c < b := h c (by simp)
    have : b * digitsToNat b dv ds + dv c < b * b ^ ds.length := by
      calc b * digitsToNat b dv ds + dv c
          < b * digitsToNat b dv ds + b := by omega
        _ = b * (digitsToNat b dv ds + 1) := by ring
        _ ≤ b * b ^ ds.length := by
            exact Nat.mul_le_mul_left b (by omega)
    simpa [List.length_append, pow_succ, Nat.mul_comm] using this

theorem digitsToNat_eq_zero (b : Nat) (dv : Char → Nat) (hb : 2 ≤ b) :
    ∀ ds : Str, digitsToNat b dv ds = 0 → ∀ c ∈ ds, dv c = 0 := by
  intro ds
  induction ds using List.reverseRecOn with
  | nil => simp
  | append_singleton ds c ih =>
    intro h
    rw [digitsToNat_append] at h
    have hbx : b * digitsToNat b dv ds = 0 := Nat.eq_zero_of_add_eq_zero_right h
    have hdc : dv c = 0 := Nat.eq_zero_of_add_eq_zero_left h
    have h1 : digitsToNat b dv ds = 0 := by
      rcases Nat.eq_zero_of_mul_eq_zero hbx with h' | h'
      · omega
      · exact h'
    intro x hx
    rcases List.mem_append.1 hx with h' | h'
    · exact ih h1 x h'
    · simp at h'; subst h'; exact hdc

theorem toDigitsAux_mono (b : Nat) (enc : Nat → Char) (hb : 2 ≤ b) :
    ∀ f g n, 0 < f → n < b ^ f → f ≤ g → toDigitsAux b enc g n = toDigitsAux b enc f n := by
  intro f
  induction f with
  | zero => omega
  | succ f ih =>
    intro g n _ hn hfg
    obtain ⟨g', rfl⟩ : ∃ g', g = g' + 1 := ⟨g - 1, by omega⟩
    by_cases hnb : n < b
    · simp [toDigitsAux, hnb]
    · have hf : 0 < f := by
        rcases Nat.eq_zero_or_pos f with h | h
        · subst h; simp at hn; omega
        · exact h
      have hdiv : n / b < b ^ f := by
        rw [Nat.div_lt_iff_lt_mul (by omega)]
        calc n < b ^ (f + 1) := hn
          _ = b ^ f * b := by rw [pow_succ]
      have : toDigitsAux b enc g' (n / b) = toDigitsAux b enc f (n / b) :=
        ih g' (n / b) hf hdiv (by omega)
      simp [toDigitsAux, hnb, this]

theorem length_toDigitsAux (b : Nat) (enc : Nat → Char) (hb : 2 ≤ b) :
    ∀ f n, 0 < f → n < b ^ f → (toDigitsAux b enc f n).length ≤ f := by
  intro f
  induction f with
  | zero => omega
  | succ f ih =>
    intro n _ hn
    by_cases hnb : n < b
    · simp [toDigitsAux, hnb]
    · have hf : 0 < f := by
        rcases Nat.eq_zero_or_pos f with h | h
        · subst h; simp at hn; omega
        · exact h
      have hdiv : n / b < b ^ f := by
        rw [Nat.div_lt_iff_lt_mul (by omega)]
        calc n < b ^ (f + 1) := hn
          _ = b ^ f * b := by rw [pow_succ]
      have := ih (n / b) hf hdiv
      simp only [toDigitsAux, if_neg hnb, List.length_append, List.length_cons,
        List.length_nil]
      omega

theorem natToDigits_eq_fuel (b : Nat) (enc : Nat → Char) (hb : 2 ≤ b)
    (f n : Nat) (hf : 0 < f) (hn : n < b ^ f) :
    natToDigits b enc n = toDigitsAux b enc f n := by
  unfold natToDigits
  have hself : n < b ^ (n + 1) := by
    calc n < 2 ^ (n + 1) := by
          have := Nat.lt_two_pow n
          have h2 : (2 : Nat) ^ n ≤ 2 ^ (n + 1) := Nat.pow_le_pow_right (by omega) (by omega)
          omega
      _ ≤ b ^ (n + 1) := Nat.pow_le_pow_left hb (n + 1)
  rcases le_total f (n + 1) with h | h
  · exact toDigitsAux_mono b enc hb f (n + 1) n hf hn h
  · exact (toDigitsAux_mono b enc hb (n + 1) f n (by omega) hself h).symm

/-- Fixed-width digit-string round trip: rendering the numeric value of a
digit string back at its own width reproduces the string.  Shared by the
5-digit partition index, the 3-digit cluster counter and the 32-digit
hexadecimal unique identifier. -/
theorem pad_natToDigits_digitsToNat (b : Nat) (enc : Nat → Char) (dv : Char → Nat)
    (hb : 2 ≤ b) (henc0 : enc 0 = '0') :
    ∀ ds : Str, ds ≠ [] → (∀ c ∈ ds, dv c < b ∧ enc (dv c) = c) →
      pad ds.length (natToDigits b enc (digitsToNat b dv ds)) = ds := by
  intro ds
  induction ds using List.reverseRecOn with
  | nil => intro h; exact absurd rfl h
  | append_singleton ds c ih =>
    intro _ hgood
    have hc : dv c < b ∧ enc (dv c) = c := hgood c (by simp)
    have hds : ∀ x ∈ ds, dv x < b ∧ x ∈ ds ++ [c] := fun x hx => ⟨(hgood x (by simp [hx])).1, by simp [hx]⟩
    rw [digitsToNat_append]
    rcases List.eq_nil_or_concat ds with rfl | _
    · -- single digit
      simp only [digitsToNat, List.foldl_nil, Nat.mul_zero, Nat.zero_add]
      rw [natToDigits_eq_fuel b enc hb 1 (dv c) (by omega) (by simpa using hc.1)]
      simp [toDigitsAux, hc.1, hc.2, pad]
    · by_cases hzero : digitsToNat b dv ds = 0
      · -- the prefix is all zero digits
        have hall : ∀ x ∈ ds, x = enc 0 := by
          intro x hx
          have h0 : dv x = 0 := digitsToNat_eq_zero b dv hb ds hzero x hx
          have := (hgood x (by simp [hx])).2
          rw [h0] at this; exact this.symm
        have hrepl : ds = List.replicate ds.length '0' := by
          apply List.eq_replicate_of_mem
          intro x hx
          rw [hall x hx, henc0]
        rw [hzero]
        simp only [Nat.mul_zero, Nat.zero_add]
        rw [natToDigits_eq_fuel b enc hb 1 (dv c) (by omega) (by simpa using hc.1)]
        simp only [toDigitsAux, if_pos hc.1, hc.2]
        conv_rhs => rw [hrepl]
        simp [pad]
      · -- the prefix has a nonzero value
        have hne : ds ≠ [] := by
          intro h; subst h; simp [digitsToNat] at hzero
        have hlt : digitsToNat b dv ds < b ^ ds.length :=
          digitsToNat_lt b dv hb ds fun x hx => (hgood x (by simp [hx])).1
        have hihds : pad ds.length (natToDigits b enc (digitsToNat b dv ds)) = ds :=
          ih hne fun x hx => hgood x (by simp [hx])
        have hlen0 : 0 < ds.length := List.length_pos.2 hne
        -- the combined value
        set v := digitsToNat b dv ds with hv
        have hVlt : b * v + dv c < b ^ (ds.length + 1) := by
          have h1 : b * v + dv c < b * v + b := Nat.add_lt_add_left hc.1 _
          have h2 : b * v + b = b * (v + 1) := by ring
          have h3 : b * (v + 1) ≤ b * b ^ ds.length := Nat.mul_le_mul_left b (by omega)
          calc b * v + dv c < b * v + b := h1
            _ = b * (v + 1) := h2
            _ ≤ b * b ^ ds.length := h3
            _ = b ^ (ds.length + 1) := by rw [pow_succ, Nat.mul_comm]
        have hVge : b ≤ b * v + dv c := by
          have h1 : 1 ≤ v := Nat.one_le_iff_ne_zero.2 hzero
          have h2 : b * 1 ≤ b * v := Nat.mul_le_mul_left b h1
          omega
        rw [natToDigits_eq_fuel b enc hb (ds.length + 1) (b * v + dv c) (by omega) hVlt]
        have hdivv : (b * v + dv c) / b = v := by
          rw [Nat.mul_add_div (by omega : 0 < b)]
          simp [Nat.div_eq_of_lt hc.1]
        have hmodv : (b * v + dv c) % b = dv c := by
          rw [Nat.mul_add_mod]
          exact Nat.mod_eq_of_lt hc.1
        have hnotlt : ¬ (b * v + dv c < b) := by omega
        have hlenbound : (natToDigits b enc v).length ≤ ds.length := by
          rw [natToDigits_eq_fuel b enc hb ds.length v hlen0 hlt]
          exact length_toDigitsAux b enc hb ds.length v hlen0 hlt
        simp only [toDigitsAux, if_neg hnotlt, hdivv, hmodv, hc.2]
        rw [← natToDigits_eq_fuel b enc hb ds.length v hlen0 hlt]
        -- peel the last digit off the padding
        unfold pad
        rw [List.length_append]
        simp only [List.length_cons, List.length_nil, List.length_append]
        have harith : ds.length + 1 - ((natToDigits b enc v).length + 1)
            = ds.length - (natToDigits b enc v).length := by omega
        rw [harith, ← List.append_assoc]
        have hfinal := hihds
        unfold pad at hfinal
        rw [hfinal]

/-! ## String scanning combinators

These model the deterministic matching of `FILENAME_REGEX`: every token of
that pattern is either a literal or a fixed-width character class, and the
three-way alternation has pairwise distinct first characters, so the
regex match function is an ordinary left-to-right scan.
-/

/-- Consume an exact literal; returns the rest of the input. -/
def takeLit : Str → Str → Option Str
  | [], s => some s
  | _ :: _, [] => none
  | c :: cs, d :: ds => if c = d then takeLit cs ds else none

/-- Consume exactly `n` characters satisfying `p`. -/
def takeN (p : Char → Bool) (n : Nat) (s : Str) : Option (Str × Str) :=
  if (s.take n).length = n && (s.take n).all p then some (s.take n, s.drop n) else none

theorem takeLit_eq_some {r : Str} :
    ∀ {lit s : Str}, takeLit lit s = some r ↔ s = lit ++ r := by
  intro lit
  induction lit with
  | nil => intro s; simp [takeLit, eq_comm]
  | cons c cs ih =>
    intro s
    match s with
    | [] => simp [takeLit]
    | d :: ds =>
      by_cases h : c = d
      · subst h; simp [takeLit, ih]
      · simp [takeLit, h]
        intro h'
        exact absurd h'.symm h

theorem takeN_eq_some {p : Char → Bool} {n : Nat} {s t r : Str} :
    takeN p n s = some (t, r) ↔ s = t ++ r ∧ t.length = n ∧ t.all p = true := by
  constructor
  · intro h
    unfold takeN at h
    by_cases hc : (s.take n).length = n && (s.take n).all p
    · rw [if_pos hc] at h
      obtain ⟨rfl, rfl⟩ : s.take n = t ∧ s.drop n = r := by
        have := Option.some.inj h
        exact ⟨congrArg Prod.fst this, congrArg Prod.snd this⟩
      have hc' := hc
      simp only [Bool.and_eq_true, decide_eq_true_eq] at hc'
      exact ⟨(List.take_append_drop n s).symm, by simpa using hc'.1, hc'.2⟩
    · rw [if_neg hc] at h; cases h
  · rintro ⟨rfl, rfl, hall⟩
    unfold takeN
    rw [List.take_left, List.drop_left]
    simp [hall]

/-! ## Path splitting

`str::split('/')` and its inverse. `split` yields `n + 1` components for
`n` separators and never yields an empty list.
-/

/-- Rust `str::split(c)`, on character lists. -/
def splitOnChar (c : Char) : Str → List Str
  | [] => [[]]
  | d :: rest =>
    match splitOnChar c rest with
    | [] => [[d]]
    | g :: gs => if d = c then [] :: g :: gs else (d :: g) :: gs

/-- Joining with a separator, the inverse of `splitOnChar`. -/
def joinChar (c : Char) : List Str → Str
  | [] => []
  | [g] => g
  | g :: g' :: gs => g ++ c :: joinChar c (g' :: gs)

theorem splitOnChar_ne_nil (c : Char) : ∀ s : Str, splitOnChar c s ≠ [] := by
  intro s
  match s with
  | [] => simp [splitOnChar]
  | d :: rest =>
    simp only [splitOnChar]
    match splitOnChar c rest with
    | [] => simp
    | g :: gs =>
      by_cases h : d = c <;> simp [h]

theorem joinChar_splitOnChar (c : Char) : ∀ s : Str, joinChar c (splitOnChar c s) = s := by
  intro s
  induction s with
  | nil => simp [splitOnChar, joinChar]
  | cons d rest ih =>
    cases hsp : splitOnChar c rest with
    | nil => exact absurd hsp (splitOnChar_ne_nil c rest)
    | cons g gs =>
      rw [hsp] at ih
      by_cases h : d = c
      · subst h
        simp only [splitOnChar, hsp, if_pos rfl, joinChar]
        rw [List.nil_append, ih]
      · simp only [splitOnChar, hsp, if_neg h]
        cases gs with
        | nil =>
          simp only [joinChar] at ih ⊢
          rw [ih]
        | cons g' gs' =>
          simp only [joinChar] at ih ⊢
          rw [List.cons_append, ih]

/-- `joinChar` over a list ending in a final component. -/
theorem joinChar_concat (c : Char) :
    ∀ (ds : List Str) (x : Str), joinChar c (ds ++ [x]) = (ds.map (fun d => d ++ [c])).flatten ++ x := by
  intro ds
  induction ds with
  | nil => intro x; simp [joinChar]
  | cons d ds ih =>
    intro x
    cases ds with
    | nil => simp [joinChar]
    | cons d' ds' =>
      have h1 := ih x
      simp only [List.append_eq, List.cons_append, joinChar, List.map_cons,
        List.flatten_cons] at h1 ⊢
      rw [h1]
      simp

/-! ## The file-name codec (`ParquetDeltaFile`, `CompressionType`) -/

/-- The compression token of a file name (`CompressionType` in the source,
variants in declaration order `SNAPPY`, `GZIP`, `NONE`). -/
inductive CompressionType where
  | SNAPPY
  | GZIP
  | NONE
deriving DecidableEq, Repr

/-- `CompressionType::from_str`; the catch-all arm of the Rust `match`
panics, modelled by `none`. -/
def CompressionType.from_str (s : Str) : Option CompressionType :=
  if s = "snappy".toList then some CompressionType.SNAPPY
  else if s = "gzip".toList then some CompressionType.GZIP
  else if s = "none".toList then some CompressionType.NONE
  else none

/-- `CompressionType::to_string`. -/
def CompressionType.to_string : CompressionType → Str
  | CompressionType.GZIP => "gzip".toList
  | CompressionType.SNAPPY => "snappy".toList
  | CompressionType.NONE => "none".toList

/-- A parsed parquet file descriptor: `partition` is a `u32`, `uuid` a
`u128`, `cluster` a `u8` in the source; all are modelled as `Nat`. -/
structure ParquetDeltaFile where
  partition : Nat
  uuid : Nat
  cluster : Nat
  compression : CompressionType
deriving DecidableEq, Repr

/-- Rust `str::parse::<u32>`: an all-digit string parses to its value
unless the value exceeds `u32::MAX` (the strings reaching this parser are
the regex's 5-digit captures, hence digit-only and sign-free). -/
def parseU32 (s : Str) : Option Nat :=
  if !s.isEmpty && s.all isDigitB && decide (digitsToNat 10 digitVal s < 4294967296)
  then some (digitsToNat 10 digitVal s) else none

/-- Rust `str::parse::<u8>` on the regex's 3-digit cluster capture. -/
def parseU8 (s : Str) : Option Nat :=
  if !s.isEmpty && s.all isDigitB && decide (digitsToNat 10 digitVal s < 256)
  then some (digitsToNat 10 digitVal s) else none

/-- The partition field of `from_string`:
`caps["part"].parse::<u32>().unwrap_or_else(|_err| u32::max_value())`. -/
def parsePartitionField (s : Str) : Nat :=
  match parseU32 s with
  | some v => v
  | none => 4294967295

/-- Scan the hyphenated `8-4-4-4-12` hex-digit group pattern (the shape
shared by the regex's `uuid` capture group and by `Uuid::parse_str`),
returning the five groups and the remaining input. -/
def uuidScan (s : Str) : Option (Str × Str × Str × Str × Str × Str) :=
  match takeN isHexB 8 s with
  | none => none
  | some (g1, r1) =>
  match takeLit ['-'] r1 with
  | none => none
  | some r2 =>
  match takeN isHexB 4 r2 with
  | none => none
  | some (g2, r3) =>
  match takeLit ['-'] r3 with
  | none => none
  | some r4 =>
  match takeN isHexB 4 r4 with
  | none => none
  | some (g3, r5) =>
  match takeLit ['-'] r5 with
  | none => none
  | some r6 =>
  match takeN isHexB 4 r6 with
  | none => none
  | some (g4, r7) =>
  match takeLit ['-'] r7 with
  | none => none
  | some r8 =>
  match takeN isHexB 12 r8 with
  | none => none
  | some (g5, r9) => some (g1, g2, g3, g4, g5, r9)

/-- `Uuid::parse_str` on the hyphenated `8-4-4-4-12` format (the only
format reaching it here: the regex capture always has that shape), giving
the 128-bit value of the 32 hex digits, case-insensitively. -/
def uuidParseStr (s : Str) : Option Nat :=
  match uuidScan s with
  | none => none
  | some (g1, g2, g3, g4, g5, r) =>
    match r with
    | [] => some (digitsToNat 16 hexVal (g1 ++ g2 ++ g3 ++ g4 ++ g5))
    | _ :: _ => none

/-- The named captures of `FILENAME_REGEX`. -/
structure Captures where
  part : Str
  uuid : Str
  c : Str
  compression : Str
deriving DecidableEq, Repr

/-- The compression alternation `(snappy|gzip|none)`: the three literals
have pairwise distinct first characters, so first-match semantics is a
simple three-way trial. -/
def takeComp (s : Str) : Option (Str × Str) :=
  match takeLit ("snappy".toList) s with
  | some r => some ("snappy".toList, r)
  | none =>
    match takeLit ("gzip".toList) s with
    | some r => some ("gzip".toList, r)
    | none =>
      match takeLit ("none".toList) s with
      | some r => some ("none".toList, r)
      | none => none

/-- `FILENAME_REGEX.captures`.  The pattern is anchored at the start
(`^`) but NOT at the end, and the dot between the compression token and
`parquet` is an unescaped `.`, which matches any single character except
a newline; characters after `parquet` are unconstrained.  All other
tokens are literals or fixed-width classes, so matching is the
deterministic scan below.  The `\d` classes are modelled as the ASCII
digits `[0-9]`; the regex crate compiles `\d` as Unicode `\p{Nd}`, so
this scanner captures the ASCII sublanguage of the compiled regex and
agrees with it exactly on ASCII inputs. -/
def filenameCaptures (s : Str) : Option Captures :=
  match takeLit ("part-".toList) s with
  | none => none
  | some r0 =>
  match takeN isDigitB 5 r0 with
  | none => none
  | some (part, r1) =>
  match takeLit ['-'] r1 with
  | none => none
  | some r2 =>
  match uuidScan r2 with
  | none => none
  | some (g1, g2, g3, g4, g5, r11) =>
  match takeLit (".c".toList) r11 with
  | none => none
  | some r12 =>
  match takeN isDigitB 3 r12 with
  | none => none
  | some (cd, r13) =>
  match takeLit ['.'] r13 with
  | none => none
  | some r14 =>
  match takeComp r14 with
  | none => none
  | some (comp, r15) =>
  match r15 with
  | [] => none
  | ch :: r16 =>
    if ch = '\n' then none
    else
      match takeLit ("parquet".toList) r16 with
      | none => none
      | some _ =>
        some { part := part
               uuid := g1 ++ '-' :: g2 ++ '-' :: g3 ++ '-' :: g4 ++ '-' :: g5
               c := cd
               compression := comp }

/-- `ParquetDeltaFile::from_string`.  A regex mismatch, a failing
`Uuid::parse_str` unwrap, a failing cluster-field unwrap or an unknown
compression token all panic in the source and yield `none` here. -/
def ParquetDeltaFile.from_string (s : Str) : Option ParquetDeltaFile :=
  match filenameCaptures s with
  | none => none
  | some caps =>
    match uuidParseStr caps.uuid, parseU8 caps.c, CompressionType.from_str caps.compression with
    | some uuid, some cluster, some compression =>
      some { partition := parsePartitionField caps.part
             uuid := uuid
             cluster := cluster
             compression := compression }
    | _, _, _ => none

/-- The canonical hyphenated rendering of a `u128` unique identifier, as
produced by `Uuid::from_u128(..)`'s display: 32 lower-case hex digits,
zero-padded, grouped 8-4-4-4-12. -/
def uuidRender (n : Nat) : Str :=
  let h := pad 32 (natToDigits 16 hexChar n)
  h.take 8 ++ '-' :: (h.drop 8).take 4 ++ '-' :: (h.drop 12).take 4
    ++ '-' :: (h.drop 16).take 4 ++ '-' :: h.drop 20

/-- `ParquetDeltaFile::name`:
`format!("part-{:05}-{}.c{:03}.{}.parquet", ..)`. -/
def ParquetDeltaFile.name (f : ParquetDeltaFile) : Str :=
  "part-".toList ++ pad 5 (natToDigits 10 digitChar f.partition)
    ++ '-' :: uuidRender f.uuid
    ++ ".c".toList ++ pad 3 (natToDigits 10 digitChar f.cluster)
    ++ '.' :: f.compression.to_string ++ ".parquet".toList

/-- The canonical file-name grammar of specification section 6, stated
verbatim from the spec: `part-DDDDD-HHHHHHHH-HHHH-HHHH-HHHH-HHHHHHHHHHHH.cCCC.(snappy|gzip|none).parquet`,
anchored at BOTH ends, with literal dots (this is the grammar the claims
quantify over; it differs from the compiled `FILENAME_REGEX`, which is
not end-anchored and has one unescaped dot). -/
def spec_canonicalName (s : Str) : Bool :=
  match takeLit ("part-".toList) s with
  | none => false
  | some r0 =>
  match takeN isDigitB 5 r0 with
  | none => false
  | some (_, r1) =>
  match takeLit ['-'] r1 with
  | none => false
  | some r2 =>
  match uuidScan r2 with
  | none => false
  | some (_, _, _, _, _, r11) =>
  match takeLit (".c".toList) r11 with
  | none => false
  | some r12 =>
  match takeN isDigitB 3 r12 with
  | none => false
  | some (_, r13) =>
  match takeLit ['.'] r13 with
  | none => false
  | some r14 =>
  match takeComp r14 with
  | none => false
  | some (_, r15) =>
  match takeLit (".parquet".toList) r15 with
  | none => false
  | some r16 =>
  match r16 with
  | [] => true
  | _ :: _ => false

/-- `PartitionPath { key, value }`, modelled as a pair. -/
abbrev PartitionPath := Str × Str

/-- One parsed input path: its partition segments and its file descriptor. -/
abbrev Entry := List PartitionPath × ParquetDeltaFile

/-! ## The derived total order

`#[derive(PartialOrd, Ord)]` on `ParquetDeltaFile` and `PartitionPath`,
with `Vec` and tuples ordered lexicographically and `&str` ordered by
UTF-8 bytes (= code points = the `List Char` lexicographic order).  The
order is expressed by an injective key into types that already carry the
corresponding lexicographic linear orders.
-/

/-- Enum variants compare in declaration order: `SNAPPY < GZIP < NONE`. -/
def compressionRank : CompressionType → Nat
  | CompressionType.SNAPPY => 0
  | CompressionType.GZIP => 1
  | CompressionType.NONE => 2

/-- The derived lexicographic sort key of `ParquetDeltaFile`:
`(partition, uuid, cluster, compression)` in field order. -/
def fileKey (f : ParquetDeltaFile) : Nat ×ₗ Nat ×ₗ Nat ×ₗ Nat :=
  toLex (f.partition, toLex (f.uuid, toLex (f.cluster, compressionRank f.compression)))

/-- The derived sort key of a parsed entry `(Vec<PartitionPath>, ParquetDeltaFile)`:
the segment list (each segment ordered by key, then value) first, then the file. -/
def entryKey (e : Entry) : List (Str ×ₗ Str) ×ₗ Nat ×ₗ Nat ×ₗ Nat ×ₗ Nat :=
  toLex (e.1.map toLex, fileKey e.2)

/-- The derived `<=` used by `.sorted()` in `from_paths`. -/
def entryLe (a b : Entry) : Prop := entryKey a ≤ entryKey b

instance : DecidableRel entryLe :=
  fun a b => inferInstanceAs (Decidable (entryKey a ≤ entryKey b))

instance : IsTrans Entry entryLe := ⟨fun _ _ _ h1 h2 => le_trans h1 h2⟩

instance : IsTotal Entry entryLe := ⟨fun a b => le_total (entryKey a) (entryKey b)⟩

theorem compressionRank_inj {a b : CompressionType}
    (h : compressionRank a = compressionRank b) : a = b := by
  cases a <;> cases b <;> simp_all [compressionRank]

theorem fileKey_inj {f g : ParquetDeltaFile} (h : fileKey f = fileKey g) : f = g := by
  cases f; cases g
  simp only [fileKey, toLex_inj, Prod.mk.injEq] at h
  obtain ⟨h1, h2, h3, h4⟩ := h
  subst h1; subst h2; subst h3
  rw [compressionRank_inj h4]

theorem entryKey_inj {a b : Entry} (h : entryKey a = entryKey b) : a = b := by
  unfold entryKey at h
  rw [toLex_inj, Prod.mk.injEq] at h
  obtain ⟨h1, h2⟩ := h
  have hinj : Function.Injective (toLex : PartitionPath → Str ×ₗ Str) :=
    fun x y hxy => toLex_inj.mp hxy
  exact Prod.ext (List.map_injective_iff.mpr hinj h1) (fileKey_inj h2)

instance : IsAntisymm Entry entryLe :=
  ⟨fun _ _ h1 h2 => entryKey_inj (le_antisymm h1 h2)⟩

/-! ## The partition tree -/

/-- `TreeNode`: a partition level (key name and value map) or a leaf
holding parquet files.  The `HashMap<String, TreeNode>` is modelled as an
association list in insertion order. -/
inductive TreeNode where
  | Partition (name : Str) (values : List (Str × TreeNode))
  | FileEntries (files : List ParquetDeltaFile)

/-- `DeltaTree`. -/
structure DeltaTree where
  root : TreeNode

/-- `HashMap::insert`: replace the value at an existing key in place, or
append a new binding. -/
def insertHM (m : List (Str × TreeNode)) (k : Str) (v : TreeNode) : List (Str × TreeNode) :=
  match m with
  | [] => [(k, v)]
  | (k', v') :: rest => if k' = k then (k, v) :: rest else (k', v') :: insertHM rest k v

/-- `DeltaTree::key_value`: split a path component at the first `=`. -/
def DeltaTree.key_value (path : Str) : Option PartitionPath :=
  match path.dropWhile (fun c => c != '=') with
  | [] => none
  | _ :: value => some (path.takeWhile (fun c => c != '='), value)

/-- Sequencing of `Option` results: a list of component results succeeds
iff every component does.  Models the propagation of panics through the
iterator pipelines of `from_paths` / `parse_path`. -/
def sequenceOpt : List (Option α) → Option (List α)
  | [] => some []
  | none :: _ => none
  | some x :: os =>
    match sequenceOpt os with
    | none => none
    | some xs => some (x :: xs)

/-- `DeltaTree::parse_path`: pop the file name off the component list,
parse it, and key-value-split the remaining components in order (each
`unwrap` panic is `none`). -/
def DeltaTree.parse_path (path : List Str) : Option Entry :=
  match path.getLast? with
  | none => none
  | some last =>
    match ParquetDeltaFile.from_string last,
          sequenceOpt (path.dropLast.map DeltaTree.key_value) with
    | some parquet, some segs => some (segs, parquet)
    | _, _ => none

/-- The key of an entry's segment at the current level (`p1.key` resp.
`path.0.get(level).unwrap().key`; the level is represented by having
dropped the first `level` segments). -/
def keyAt (e : Entry) : Str :=
  match e.1 with
  | [] => []
  | (k, _) :: _ => k

/-- The value of an entry's segment at the current level. -/
def headValue (e : Entry) : Str :=
  match e.1 with
  | [] => []
  | (_, v) :: _ => v

/-- Termination measure helper: each entry weighs one more than its
number of remaining segments. -/
def entryWeight (e : Entry) : Nat := e.1.length + 1

/-- Termination measure: total weight of a slice. -/
def pathsWeight (l : List Entry) : Nat := (l.map entryWeight).sum

theorem pathsWeight_cons (e : Entry) (l : List Entry) :
    pathsWeight (e :: l) = entryWeight e + pathsWeight l := by
  simp [pathsWeight]

theorem pathsWeight_sublist {l₁ l₂ : List Entry} (h : l₁.Sublist l₂) :
    pathsWeight l₁ ≤ pathsWeight l₂ := by
  induction h with
  | slnil => exact le_rfl
  | cons a h ih => rw [pathsWeight_cons]; omega
  | cons₂ a h ih => rw [pathsWeight_cons, pathsWeight_cons]; omega

theorem pathsWeight_tailMap_le (l : List Entry) :
    pathsWeight (l.map (fun e => (e.1.tail, e.2))) ≤ pathsWeight l := by
  induction l with
  | nil => simp [pathsWeight]
  | cons e l ih =>
    simp only [List.map_cons, pathsWeight_cons]
    have h1 : entryWeight ((e.1.tail, e.2) : Entry) ≤ entryWeight e := by
      simp only [entryWeight]
      have := List.length_tail e.1
      omega
    omega

/-- Measure bound for the recursion into a run's next level. -/
theorem buildMeasureRun (x : Entry) (r : List Entry) (p : Entry → Bool) (k v : Str)
    (tl : List PartitionPath) (he : x.1 = (k, v) :: tl) :
    2 * pathsWeight ((tl, x.2) :: (r.takeWhile p).map (fun e' => (e'.1.tail, e'.2))) + 1
      < 2 * pathsWeight (x :: r) := by
  have h1 : pathsWeight ((r.takeWhile p).map (fun e' => (e'.1.tail, e'.2)))
      ≤ pathsWeight (r.takeWhile p) := pathsWeight_tailMap_le _
  have h3 : pathsWeight (r.takeWhile p) ≤ pathsWeight r :=
    pathsWeight_sublist (List.takeWhile_sublist _)
  have h4 := pathsWeight_cons x r
  have h6 := pathsWeight_cons ((tl, x.2) : Entry)
    ((r.takeWhile p).map (fun e' => (e'.1.tail, e'.2)))
  have h5 : x.1.length = tl.length + 1 := by rw [he]; simp
  simp only [entryWeight] at h4 h6
  omega

/-- Measure bound for the recursion into the remaining runs. -/
theorem buildMeasureRest (x : Entry) (r : List Entry) (p : Entry → Bool) :
    2 * pathsWeight (r.dropWhile p) < 2 * pathsWeight (x :: r) := by
  have h1 : pathsWeight (r.dropWhile p) ≤ pathsWeight r :=
    pathsWeight_sublist (List.dropWhile_sublist _)
  have h2 := pathsWeight_cons x r
  simp only [entryWeight] at h2
  omega

mutual

/-- `DeltaTree::build_partition`.  The slice at level `level` is
represented by entries whose first `level` segments have been dropped, so
`first_entry.0.get(level)` becomes the head of the first entry's list and
the `assert_eq!(path.0.len(), first_entry.0.len())` comparison of full
lengths becomes a comparison of the remaining lengths.  The two
`assert_eq!` panics of the scan loop are modelled by the boolean check
(a `false` makes the whole build `none`); subtree construction happens
for the maximal runs of consecutive equal values, which the scan closes
whenever the value changes, in scan order. -/
def DeltaTree.build_partition (paths : List Entry) : Option TreeNode :=
  match hp : paths with
  | [] => some (TreeNode.FileEntries [])
  | first :: _ =>
    match first.1 with
    | [] => some (TreeNode.FileEntries (paths.map (fun e => e.2)))
    | (k, _) :: _ =>
      if paths.all (fun e => e.1.length == first.1.length && keyAt e == k) then
        (DeltaTree.build_children paths).map (fun kids =>
          TreeNode.Partition k (kids.foldl (fun m kv => insertHM m kv.1 kv.2) []))
      else none
termination_by 2 * pathsWeight paths + 1
decreasing_by subst hp; omega

/-- The scan loop of `build_partition`: split off the maximal run of
entries sharing the first entry's value at this level, build its subtree
at the next level, and continue with the remaining entries.  The `[]`
segment case cannot be reached from `build_partition` (its length check
guarantees every entry still has a segment); returning `none` there
mirrors that invariant. -/
def DeltaTree.build_children (paths : List Entry) : Option (List (Str × TreeNode)) :=
  match hp : paths with
  | [] => some []
  | e :: rest =>
    match he : e.1 with
    | [] => none
    | (_, v) :: tl =>
      let run := rest.takeWhile (fun e' => headValue e' == v)
      let rest' := rest.dropWhile (fun e' => headValue e' == v)
      match DeltaTree.build_partition ((tl, e.2) :: run.map (fun e' => (e'.1.tail, e'.2))),
            DeltaTree.build_children rest' with
      | some t, some kids => some ((v, t) :: kids)
      | _, _ => none
termination_by 2 * pathsWeight paths
decreasing_by
  · subst hp
    exact buildMeasureRun _ _ _ _ _ _ he
  · subst hp
    exact buildMeasureRest _ _ _

end

/-- `DeltaTree::from_paths`. -/
def DeltaTree.from_paths (input_files : List Str) : Option DeltaTree :=
  if input_files.isEmpty then some { root := TreeNode.FileEntries [] }
  else
    match sequenceOpt (input_files.map (fun f => DeltaTree.parse_path (splitOnChar '/' f))) with
    | none => none
    | some components =>
      match DeltaTree.build_partition (List.insertionSort entryLe components) with
      | none => none
      | some root => some { root := root }

/-- `files_in_subtree` of `DeltaTree::files`. -/
def filesInSubtree (pre : Str) (node : TreeNode) : List Str :=
  match node with
  | TreeNode.FileEntries files => files.map (fun f => pre ++ f.name)
  | TreeNode.Partition _ [] => []
  | TreeNode.Partition nm ((value, child) :: rest) =>
    filesInSubtree (pre ++ nm ++ '=' :: value ++ ['/']) child
      ++ filesInSubtree pre (TreeNode.Partition nm rest)
termination_by sizeOf node
decreasing_by
  · simp only [TreeNode.Partition.sizeOf_spec, List.cons.sizeOf_spec, Prod.mk.sizeOf_spec]
    omega
  · simp only [TreeNode.Partition.sizeOf_spec, List.cons.sizeOf_spec, Prod.mk.sizeOf_spec]
    omega

/-- `DeltaTree::files`. -/
def DeltaTree.files (t : DeltaTree) : List Str := filesInSubtree [] t.root

/-! ## Order lemmas

Facts about the derived entry order needed for the grouping proofs: the
order restricted to entries with the same head segment is the order of
their tails, and among entries with the same head key, sorting orders
the head values.
-/

theorem list_lt_cons_iff {α : Type} [LinearOrder α] {a : α} {l l' : List α} :
    (a :: l) < (a :: l') ↔ l < l' := by
  constructor
  · intro h
    have h' : List.Lex (· < ·) (a :: l) (a :: l') := h
    cases h' with
    | cons h' => exact h'
    | rel h' => exact absurd h' (lt_irrefl a)
  · intro h
    exact List.Lex.cons h

theorem list_head_le_of_le {α : Type} [LinearOrder α] {a b : α} {l l' : List α}
    (h : (a :: l) ≤ (b :: l')) : a ≤ b := by
  rcases lt_or_eq_of_le h with h' | h'
  · exact List.head_le_of_lt h'
  · injection h' with h1 _
    exact le_of_eq h1

theorem entryLe_cons_iff {s : PartitionPath} {t t' : List PartitionPath}
    {f f' : ParquetDeltaFile} :
    entryLe (s :: t, f) (s :: t', f') ↔ entryLe (t, f) (t', f') := by
  unfold entryLe entryKey
  rw [Prod.Lex.le_iff, Prod.Lex.le_iff]
  simp only [List.map_cons]
  constructor
  · rintro (h | ⟨h1, h2⟩)
    · exact Or.inl (list_lt_cons_iff.mp h)
    · injection h1 with _ h1
      exact Or.inr ⟨h1, h2⟩
  · rintro (h | ⟨h1, h2⟩)
    · exact Or.inl (list_lt_cons_iff.mpr h)
    · exact Or.inr ⟨by rw [h1], h2⟩

theorem entryLe_head_value_le {k v v' : Str} {t t' : List PartitionPath}
    {f f' : ParquetDeltaFile}
    (h : entryLe ((k, v) :: t, f) ((k, v') :: t', f')) : v ≤ v' := by
  unfold entryLe entryKey at h
  rw [Prod.Lex.le_iff] at h
  simp only [List.map_cons] at h
  have hhd : toLex ((k, v) : PartitionPath) ≤ toLex ((k, v') : PartitionPath) := by
    rcases h with h | ⟨h, _⟩
    · exact list_head_le_of_le (le_of_lt h)
    · injection h with h1 _
      exact le_of_eq h1
  rw [Prod.Lex.le_iff] at hhd
  rcases hhd with h' | ⟨_, h'⟩
  · exact absurd h' (lt_irrefl k)
  · exact h'

theorem sorted_tailMap {s : PartitionPath} {l : List Entry}
    (hs : List.Sorted entryLe l) (hall : ∀ e ∈ l, ∃ t, e.1 = s :: t) :
    List.Sorted entryLe (l.map (fun e => (e.1.tail, e.2))) := by
  rw [List.Sorted, List.pairwise_map]
  refine List.Pairwise.imp_of_mem ?_ hs
  intro a b ha hb hab
  obtain ⟨ta, hta⟩ := hall a ha
  obtain ⟨tb, htb⟩ := hall b hb
  obtain ⟨sa, fa⟩ := a
  obtain ⟨sb, fb⟩ := b
  simp only at hta htb
  subst hta
  subst htb
  simp only [List.tail_cons]
  exact entryLe_cons_iff.mp hab

/-! ## `sequenceOpt` characterisations -/

theorem sequenceOpt_map_some {α : Type} (xs : List α) :
    sequenceOpt (xs.map some) = some xs := by
  induction xs with
  | nil => rfl
  | cons x xs ih => simp [sequenceOpt, ih]

theorem sequenceOpt_some_eq {α : Type} (l : List (Option α)) (xs : List α)
    (h : sequenceOpt l = some xs) : l = xs.map some := by
  induction l generalizing xs with
  | nil =>
    have h' : (some ([] : List α) : Option (List α)) = some xs := h
    injection h' with h'
    rw [← h']
    rfl
  | cons o os ih =>
    cases o with
    | none => exact absurd h (by simp [sequenceOpt])
    | some a =>
      cases hso : sequenceOpt os with
      | none =>
        simp only [sequenceOpt, hso] at h
        cases h
      | some ys =>
        simp only [sequenceOpt, hso] at h
        injection h with h
        rw [← h]
        simp [List.map_cons, ih ys hso]

theorem sequenceOpt_eq_none_iff {α : Type} (l : List (Option α)) :
    sequenceOpt l = none ↔ none ∈ l := by
  induction l with
  | nil => simp [sequenceOpt]
  | cons o os ih =>
    cases o with
    | none => simp [sequenceOpt]
    | some a =>
      cases hso : sequenceOpt os with
      | none =>
        simp only [sequenceOpt, hso, List.mem_cons]
        simp [← ih, hso]
      | some ys =>
        simp only [sequenceOpt, hso, List.mem_cons]
        simp [← ih, hso]

/-! ## Rendering an entry back to a raw path -/

/-- Rendering one parsed entry back to its raw path, as `files` does it:
the prefix format `"{key}={value}/"` for every segment in order, then the
file name. -/
def renderEntry (e : Entry) : Str :=
  (e.1.map (fun s => s.1 ++ '=' :: s.2 ++ ['/'])).flatten ++ e.2.name

theorem renderEntry_nil (f : ParquetDeltaFile) : renderEntry ([], f) = f.name := by
  simp [renderEntry]

theorem renderEntry_cons (k v : Str) (t : List PartitionPath) (f : ParquetDeltaFile) :
    renderEntry ((k, v) :: t, f) = (k ++ '=' :: v ++ ['/']) ++ renderEntry (t, f) := by
  simp [renderEntry, List.append_assoc]

/-! ## `insertHM` and the children fold -/

theorem insertHM_not_mem (m : List (Str × TreeNode)) (k : Str) (v : TreeNode)
    (h : ∀ x ∈ m, x.1 ≠ k) : insertHM m k v = m ++ [(k, v)] := by
  induction m with
  | nil => rfl
  | cons p m ih =>
    obtain ⟨k', v'⟩ := p
    have hk : k' ≠ k := h (k', v') (by simp)
    simp only [insertHM, if_neg hk, List.cons_append, List.cons.injEq, true_and]
    exact ih (fun x hx => h x (by simp [hx]))

theorem foldl_insertHM (kids : List (Str × TreeNode)) :
    ∀ acc : List (Str × TreeNode),
      (kids.map Prod.fst).Nodup →
      (∀ x ∈ kids, ∀ y ∈ acc, x.1 ≠ y.1) →
      kids.foldl (fun m kv => insertHM m kv.1 kv.2) acc = acc ++ kids := by
  induction kids with
  | nil => intro acc _ _; simp
  | cons p kids ih =>
    intro acc hnd hdis
    obtain ⟨k, v⟩ := p
    simp only [List.foldl_cons]
    have h1 : insertHM acc k v = acc ++ [(k, v)] :=
      insertHM_not_mem acc k v (fun x hx => (hdis (k, v) (by simp) x hx).symm)
    rw [h1]
    simp only [List.map_cons, List.nodup_cons] at hnd
    rw [ih (acc ++ [(k, v)]) hnd.2 ?_]
    · simp
    · intro x hx y hy
      rcases List.mem_append.1 hy with h' | h'
      · exact hdis x (by simp [hx]) y h'
      · simp only [List.mem_singleton] at h'
        subst h'
        intro hxk
        have hxk' : x.1 = k := hxk
        apply hnd.1
        rw [← hxk']
        exact List.mem_map_of_mem Prod.fst hx

/-! ## Flattening a partition node -/

theorem filesInSubtree_partition (nm : Str) :
    ∀ (kids : List (Str × TreeNode)) (pre : Str),
      filesInSubtree pre (TreeNode.Partition nm kids)
        = kids.flatMap (fun vt => filesInSubtree (pre ++ nm ++ '=' :: vt.1 ++ ['/']) vt.2) := by
  intro kids
  induction kids with
  | nil =>
    intro pre
    rw [filesInSubtree.eq_def]
    rfl
  | cons p kids ih =>
    intro pre
    obtain ⟨v, t⟩ := p
    have hstep : filesInSubtree pre (TreeNode.Partition nm ((v, t) :: kids))
        = filesInSubtree (pre ++ nm ++ '=' :: v ++ ['/']) t
          ++ filesInSubtree pre (TreeNode.Partition nm kids) := by
      rw [filesInSubtree.eq_def]
    rw [hstep, ih pre, List.flatMap_cons]

/-! ## Character classes and digit encodings -/

theorem digitChar_digitVal {c : Char} (h : isDigitB c = true) :
    digitVal c < 10 ∧ digitChar (digitVal c) = c := by
  simp only [isDigitB, Bool.and_eq_true, decide_eq_true_eq] at h
  constructor
  · simp only [digitVal]; omega
  · simp only [digitChar, digitVal]
    have h48 : 48 + (c.toNat - 48) = c.toNat := by omega
    rw [h48, Char.ofNat_toNat]

theorem hexChar_hexVal {c : Char} (h : isHexB c = true)
    (hup : ¬ (65 ≤ c.toNat ∧ c.toNat ≤ 70)) :
    hexVal c < 16 ∧ hexChar (hexVal c) = c := by
  simp only [isHexB, isDigitB, Bool.or_eq_true, Bool.and_eq_true, decide_eq_true_eq] at h
  rcases h with (hd | hl) | hu
  · -- decimal digit
    have h97 : ¬ 97 ≤ c.toNat := by omega
    have h65 : ¬ 65 ≤ c.toNat := by omega
    constructor
    · simp only [hexVal, if_neg h97, if_neg h65]; omega
    · simp only [hexVal, hexChar, if_neg h97, if_neg h65,
        if_pos (by omega : c.toNat - 48 < 10)]
      have h48 : 48 + (c.toNat - 48) = c.toNat := by omega
      rw [h48, Char.ofNat_toNat]
  · -- lower-case a-f
    have h97 : 97 ≤ c.toNat := hl.1
    constructor
    · simp only [hexVal, if_pos h97]; omega
    · have h10 : ¬ c.toNat - 87 < 10 := by omega
      simp only [hexVal, hexChar, if_pos h97, if_neg h10]
      have h87 : 87 + (c.toNat - 87) = c.toNat := by omega
      rw [h87, Char.ofNat_toNat]
  · exact absurd hu hup

/-! ## Scanner step lemmas -/

theorem takeN_self {p : Char → Bool} {n : Nat} (t r : Str)
    (hl : t.length = n) (ha : t.all p = true) : takeN p n (t ++ r) = some (t, r) :=
  takeN_eq_some.mpr ⟨rfl, hl, ha⟩

theorem takeComp_self_snappy (r : Str) :
    takeComp ("snappy".toList ++ r) = some ("snappy".toList, r) := rfl

theorem takeComp_self_gzip (r : Str) :
    takeComp ("gzip".toList ++ r) = some ("gzip".toList, r) := rfl

theorem takeComp_self_none (r : Str) :
    takeComp ("none".toList ++ r) = some ("none".toList, r) := rfl

theorem takeComp_eq_some {s comp r : Str} (h : takeComp s = some (comp, r)) :
    s = comp ++ r ∧
      (comp = "snappy".toList ∨ comp = "gzip".toList ∨ comp = "none".toList) := by
  unfold takeComp at h
  cases h1 : takeLit ("snappy".toList) s with
  | some r' =>
    rw [h1] at h
    injection h with h
    obtain ⟨rfl, rfl⟩ : "snappy".toList = comp ∧ r' = r :=
      ⟨congrArg Prod.fst h, congrArg Prod.snd h⟩
    exact ⟨takeLit_eq_some.mp h1, Or.inl rfl⟩
  | none =>
    rw [h1] at h
    cases h2 : takeLit ("gzip".toList) s with
    | some r' =>
      rw [h2] at h
      injection h with h
      obtain ⟨rfl, rfl⟩ : "gzip".toList = comp ∧ r' = r :=
        ⟨congrArg Prod.fst h, congrArg Prod.snd h⟩
      exact ⟨takeLit_eq_some.mp h2, Or.inr (Or.inl rfl)⟩
    | none =>
      rw [h2] at h
      cases h3 : takeLit ("none".toList) s with
      | some r' =>
        rw [h3] at h
        injection h with h
        obtain ⟨rfl, rfl⟩ : "none".toList = comp ∧ r' = r :=
          ⟨congrArg Prod.fst h, congrArg Prod.snd h⟩
        exact ⟨takeLit_eq_some.mp h3, Or.inr (Or.inr rfl)⟩
      | none => rw [h3] at h; cases h

/-- `CompressionType::from_str` and `to_string` on the three tokens. -/
theorem from_str_to_string {comp : Str}
    (h : comp = "snappy".toList ∨ comp = "gzip".toList ∨ comp = "none".toList) :
    ∃ ct : CompressionType, CompressionType.from_str comp = some ct
      ∧ ct.to_string = comp := by
  rcases h with rfl | rfl | rfl
  · exact ⟨CompressionType.SNAPPY, rfl, rfl⟩
  · exact ⟨CompressionType.GZIP, by decide, rfl⟩
  · exact ⟨CompressionType.NONE, by decide, rfl⟩

/-! ## The uuid group scanner -/

theorem takeLit_hyphen (r : Str) : takeLit ['-'] ('-' :: r) = some r := rfl

theorem uuidScan_self (g1 g2 g3 g4 g5 r : Str)
    (l1 : g1.length = 8) (l2 : g2.length = 4) (l3 : g3.length = 4)
    (l4 : g4.length = 4) (l5 : g5.length = 12)
    (a1 : g1.all isHexB = true) (a2 : g2.all isHexB = true) (a3 : g3.all isHexB = true)
    (a4 : g4.all isHexB = true) (a5 : g5.all isHexB = true) :
    uuidScan (g1 ++ '-' :: (g2 ++ '-' :: (g3 ++ '-' :: (g4 ++ '-' :: (g5 ++ r)))))
      = some (g1, g2, g3, g4, g5, r) := by
  have e1 := takeN_self (p := isHexB) g1
    ('-' :: (g2 ++ '-' :: (g3 ++ '-' :: (g4 ++ '-' :: (g5 ++ r))))) l1 a1
  have e2 := takeN_self (p := isHexB) g2
    ('-' :: (g3 ++ '-' :: (g4 ++ '-' :: (g5 ++ r)))) l2 a2
  have e3 := takeN_self (p := isHexB) g3 ('-' :: (g4 ++ '-' :: (g5 ++ r))) l3 a3
  have e4 := takeN_self (p := isHexB) g4 ('-' :: (g5 ++ r)) l4 a4
  have e5 := takeN_self (p := isHexB) g5 r l5 a5
  simp only [uuidScan, e1, e2, e3, e4, e5, takeLit_hyphen]

theorem uuidScan_eq_some {s g1 g2 g3 g4 g5 r : Str}
    (h : uuidScan s = some (g1, g2, g3, g4, g5, r)) :
    s = g1 ++ '-' :: (g2 ++ '-' :: (g3 ++ '-' :: (g4 ++ '-' :: (g5 ++ r))))
      ∧ g1.length = 8 ∧ g2.length = 4 ∧ g3.length = 4 ∧ g4.length = 4 ∧ g5.length = 12
      ∧ g1.all isHexB = true ∧ g2.all isHexB = true ∧ g3.all isHexB = true
      ∧ g4.all isHexB = true ∧ g5.all isHexB = true := by
  unfold uuidScan at h
  cases h1 : takeN isHexB 8 s with
  | none => simp only [h1] at h; exact Option.noConfusion h
  | some p1 =>
  obtain ⟨G1, r1⟩ := p1
  simp only [h1] at h
  cases h2 : takeLit ['-'] r1 with
  | none => simp only [h2] at h; exact Option.noConfusion h
  | some r2 =>
  simp only [h2] at h
  cases h3 : takeN isHexB 4 r2 with
  | none => simp only [h3] at h; exact Option.noConfusion h
  | some p2 =>
  obtain ⟨G2, r3⟩ := p2
  simp only [h3] at h
  cases h4 : takeLit ['-'] r3 with
  | none => simp only [h4] at h; exact Option.noConfusion h
  | some r4 =>
  simp only [h4] at h
  cases h5 : takeN isHexB 4 r4 with
  | none => simp only [h5] at h; exact Option.noConfusion h
  | some p3 =>
  obtain ⟨G3, r5⟩ := p3
  simp only [h5] at h
  cases h6 : takeLit ['-'] r5 with
  | none => simp only [h6] at h; exact Option.noConfusion h
  | some r6 =>
  simp only [h6] at h
  cases h7 : takeN isHexB 4 r6 with
  | none => simp only [h7] at h; exact Option.noConfusion h
  | some p4 =>
  obtain ⟨G4, r7⟩ := p4
  simp only [h7] at h
  cases h8 : takeLit ['-'] r7 with
  | none => simp only [h8] at h; exact Option.noConfusion h
  | some r8 =>
  simp only [h8] at h
  cases h9 : takeN isHexB 12 r8 with
  | none => simp only [h9] at h; exact Option.noConfusion h
  | some p5 =>
  obtain ⟨G5, r9⟩ := p5
  simp only [h9] at h
  injection h with h
  obtain ⟨rfl, rfl, rfl, rfl, rfl, rfl⟩ :
      G1 = g1 ∧ G2 = g2 ∧ G3 = g3 ∧ G4 = g4 ∧ G5 = g5 ∧ r9 = r := by
    have e1 := congrArg Prod.fst h
    have e2 := congrArg (fun x => x.2.1) h
    have e3 := congrArg (fun x => x.2.2.1) h
    have e4 := congrArg (fun x => x.2.2.2.1) h
    have e5 := congrArg (fun x => x.2.2.2.2.1) h
    have e6 := congrArg (fun x => x.2.2.2.2.2) h
    exact ⟨e1, e2, e3, e4, e5, e6⟩
  obtain ⟨hs1, hl1, ha1⟩ := takeN_eq_some.mp h1
  obtain ⟨hs3, hl3, ha3⟩ := takeN_eq_some.mp h3
  obtain ⟨hs5, hl5, ha5⟩ := takeN_eq_some.mp h5
  obtain ⟨hs7, hl7, ha7⟩ := takeN_eq_some.mp h7
  obtain ⟨hs9, hl9, ha9⟩ := takeN_eq_some.mp h9
  have hs2 := takeLit_eq_some.mp h2
  have hs4 := takeLit_eq_some.mp h4
  have hs6 := takeLit_eq_some.mp h6
  have hs8 := takeLit_eq_some.mp h8
  refine ⟨?_, hl1, hl3, hl5, hl7, hl9, ha1, ha3, ha5, ha7, ha9⟩
  rw [hs1, hs2, hs3, hs4, hs5, hs6, hs7, hs8, hs9]
  simp

/-- Rendering the numeric value of 32 lower-case hex digits reproduces the
hyphenated groups. -/
theorem uuidRender_groups (g1 g2 g3 g4 g5 : Str)
    (l1 : g1.length = 8) (l2 : g2.length = 4) (l3 : g3.length = 4)
    (l4 : g4.length = 4) (l5 : g5.length = 12)
    (hgood : ∀ c ∈ g1 ++ g2 ++ g3 ++ g4 ++ g5, hexVal c < 16 ∧ hexChar (hexVal c) = c) :
    uuidRender (digitsToNat 16 hexVal (g1 ++ g2 ++ g3 ++ g4 ++ g5))
      = g1 ++ '-' :: g2 ++ '-' :: g3 ++ '-' :: g4 ++ '-' :: g5 := by
  have hGlen : (g1 ++ g2 ++ g3 ++ g4 ++ g5).length = 32 := by
    simp [l1, l2, l3, l4, l5]
  have hGne : (g1 ++ g2 ++ g3 ++ g4 ++ g5) ≠ [] := by
    intro h
    rw [h] at hGlen
    simp at hGlen
  have hG : pad 32 (natToDigits 16 hexChar (digitsToNat 16 hexVal (g1 ++ g2 ++ g3 ++ g4 ++ g5)))
      = g1 ++ g2 ++ g3 ++ g4 ++ g5 := by
    have := pad_natToDigits_digitsToNat 16 hexChar hexVal (by omega) (by decide)
      (g1 ++ g2 ++ g3 ++ g4 ++ g5) hGne hgood
    rwa [hGlen] at this
  simp only [uuidRender, hG]
  have hassoc : g1 ++ g2 ++ g3 ++ g4 ++ g5 = g1 ++ (g2 ++ (g3 ++ (g4 ++ g5))) := by
    simp [List.append_assoc]
  have t1 : (g1 ++ g2 ++ g3 ++ g4 ++ g5).take 8 = g1 := by
    rw [hassoc]; exact List.take_left' l1
  have d8 : (g1 ++ g2 ++ g3 ++ g4 ++ g5).drop 8 = g2 ++ (g3 ++ (g4 ++ g5)) := by
    rw [hassoc]; exact List.drop_left' l1
  have t2 : ((g1 ++ g2 ++ g3 ++ g4 ++ g5).drop 8).take 4 = g2 := by
    rw [d8]; exact List.take_left' l2
  have d12 : (g1 ++ g2 ++ g3 ++ g4 ++ g5).drop 12 = g3 ++ (g4 ++ g5) := by
    have h1 : (g1 ++ g2 ++ g3 ++ g4 ++ g5).drop 12
        = ((g1 ++ g2 ++ g3 ++ g4 ++ g5).drop 8).drop 4 := by
      rw [List.drop_drop]
    rw [h1, d8]; exact List.drop_left' l2
  have t3 : ((g1 ++ g2 ++ g3 ++ g4 ++ g5).drop 12).take 4 = g3 := by
    rw [d12]; exact List.take_left' l3
  have d16 : (g1 ++ g2 ++ g3 ++ g4 ++ g5).drop 16 = g4 ++ g5 := by
    have h1 : (g1 ++ g2 ++ g3 ++ g4 ++ g5).drop 16
        = ((g1 ++ g2 ++ g3 ++ g4 ++ g5).drop 12).drop 4 := by
      rw [List.drop_drop]
    rw [h1, d12]; exact List.drop_left' l3
  have t4 : ((g1 ++ g2 ++ g3 ++ g4 ++ g5).drop 16).take 4 = g4 := by
    rw [d16]; exact List.take_left' l4
  have d20 : (g1 ++ g2 ++ g3 ++ g4 ++ g5).drop 20 = g5 := by
    have h1 : (g1 ++ g2 ++ g3 ++ g4 ++ g5).drop 20
        = ((g1 ++ g2 ++ g3 ++ g4 ++ g5).drop 16).drop 4 := by
      rw [List.drop_drop]
    rw [h1, d16]; exact List.drop_left' l4
  rw [t1, t2, t3, t4, d20]

/-! ## The file-name round trip -/

/-- The names for which the round trip `render (parse n) = n` holds:
canonical per the specification grammar, no upper-case hex digits (the
renderer always emits lower case), and a cluster field value within the
`u8` range (larger values make the cluster `unwrap` panic). -/
def nameRoundTrippable (s : Str) : Bool :=
  spec_canonicalName s
    && s.all (fun c => !(decide (65 ≤ c.toNat) && decide (c.toNat ≤ 70)))
    && (match filenameCaptures s with
        | some caps => decide (digitsToNat 10 digitVal caps.c < 256)
        | none => false)

theorem from_string_name_of_canonical (s : Str) (h : nameRoundTrippable s = true) :
    ∃ f, ParquetDeltaFile.from_string s = some f ∧ f.name = s := by
  simp only [nameRoundTrippable, Bool.and_eq_true] at h
  obtain ⟨⟨hcan, hlow⟩, hcl⟩ := h
  rw [List.all_eq_true] at hlow
  unfold spec_canonicalName at hcan
  cases h0 : takeLit ("part-".toList) s with
  | none => simp only [h0] at hcan; exact Bool.noConfusion hcan
  | some r0 =>
  simp only [h0] at hcan
  cases h1 : takeN isDigitB 5 r0 with
  | none => simp only [h1] at hcan; exact Bool.noConfusion hcan
  | some p1 =>
  obtain ⟨d5, r1⟩ := p1
  simp only [h1] at hcan
  cases h2 : takeLit ['-'] r1 with
  | none => simp only [h2] at hcan; exact Bool.noConfusion hcan
  | some r2 =>
  simp only [h2] at hcan
  cases h3 : uuidScan r2 with
  | none => simp only [h3] at hcan; exact Bool.noConfusion hcan
  | some p3 =>
  obtain ⟨g1, g2, g3, g4, g5, r11⟩ := p3
  simp only [h3] at hcan
  cases h4 : takeLit (".c".toList) r11 with
  | none => simp only [h4] at hcan; exact Bool.noConfusion hcan
  | some r12 =>
  simp only [h4] at hcan
  cases h5 : takeN isDigitB 3 r12 with
  | none => simp only [h5] at hcan; exact Bool.noConfusion hcan
  | some p5 =>
  obtain ⟨c3, r13⟩ := p5
  simp only [h5] at hcan
  cases h6 : takeLit ['.'] r13 with
  | none => simp only [h6] at hcan; exact Bool.noConfusion hcan
  | some r14 =>
  simp only [h6] at hcan
  cases h7 : takeComp r14 with
  | none => simp only [h7] at hcan; exact Bool.noConfusion hcan
  | some p7 =>
  obtain ⟨comp, r15⟩ := p7
  simp only [h7] at hcan
  cases h8 : takeLit (".parquet".toList) r15 with
  | none => simp only [h8] at hcan; exact Bool.noConfusion hcan
  | some r16 =>
  simp only [h8] at hcan
  cases r16 with
  | cons c cs => simp at hcan
  | nil =>
  -- decompose the input
  have hs0 := takeLit_eq_some.mp h0
  obtain ⟨hr0eq, hd5len, hd5all⟩ := takeN_eq_some.mp h1
  have hr1eq := takeLit_eq_some.mp h2
  obtain ⟨hr2eq, lg1, lg2, lg3, lg4, lg5, ag1, ag2, ag3, ag4, ag5⟩ := uuidScan_eq_some h3
  have hr11eq := takeLit_eq_some.mp h4
  obtain ⟨hr12eq, hc3len, hc3all⟩ := takeN_eq_some.mp h5
  have hr13eq := takeLit_eq_some.mp h6
  obtain ⟨hr14eq, hcomp3⟩ := takeComp_eq_some h7
  have hr15eq := takeLit_eq_some.mp h8
  have hr15' : r15 = '.' :: "parquet".toList := by rw [hr15eq]; rfl
  -- the compiled regex accepts the name with the same captures
  have hfc : filenameCaptures s
      = some { part := d5, uuid := g1 ++ '-' :: g2 ++ '-' :: g3 ++ '-' :: g4 ++ '-' :: g5,
               c := c3, compression := comp } := by
    simp only [filenameCaptures, h0, h1, h2, h3, h4, h5, h6, h7, hr15']
    rfl
  simp only [hfc] at hcl
  rw [decide_eq_true_eq] at hcl
  -- every character of the groups is a lower-case hex digit of `s`
  have hsub : ∀ c, c ∈ g1 ++ g2 ++ g3 ++ g4 ++ g5 → c ∈ s := by
    intro c hc
    rw [hs0, hr0eq, hr1eq, hr2eq]
    simp only [List.mem_append, List.mem_cons] at hc ⊢
    tauto
  have hhexgood : ∀ c ∈ g1 ++ g2 ++ g3 ++ g4 ++ g5, hexVal c < 16 ∧ hexChar (hexVal c) = c := by
    intro c hc
    apply hexChar_hexVal
    · rw [List.all_eq_true] at ag1 ag2 ag3 ag4 ag5
      simp only [List.mem_append] at hc
      rcases hc with (((hc | hc) | hc) | hc) | hc
      · exact ag1 c hc
      · exact ag2 c hc
      · exact ag3 c hc
      · exact ag4 c hc
      · exact ag5 c hc
    · intro hcontra
      have := hlow c (hsub c hc)
      simp [hcontra.1, hcontra.2] at this
  -- the numeric sub-parses
  have hd5ne : d5 ≠ [] := by intro h'; rw [h'] at hd5len; simp at hd5len
  have hd5vals : ∀ c ∈ d5, digitVal c < 10 ∧ digitChar (digitVal c) = c := by
    rw [List.all_eq_true] at hd5all
    exact fun c hc => digitChar_digitVal (hd5all c hc)
  have hc3ne : c3 ≠ [] := by intro h'; rw [h'] at hc3len; simp at hc3len
  have hc3vals : ∀ c ∈ c3, digitVal c < 10 ∧ digitChar (digitVal c) = c := by
    rw [List.all_eq_true] at hc3all
    exact fun c hc => digitChar_digitVal (hc3all c hc)
  have hd5lt : digitsToNat 10 digitVal d5 < 4294967296 := by
    have h' := digitsToNat_lt 10 digitVal (by omega) d5 (fun c hc => (hd5vals c hc).1)
    rw [hd5len] at h'
    norm_num at h'
    omega
  have hd5empty : d5.isEmpty = false := by
    cases d5 with
    | nil => exact absurd rfl hd5ne
    | cons a l => rfl
  have hc3empty : c3.isEmpty = false := by
    cases c3 with
    | nil => exact absurd rfl hc3ne
    | cons a l => rfl
  have hpu32 : parsePartitionField d5 = digitsToNat 10 digitVal d5 := by
    have hcond : (!d5.isEmpty && d5.all isDigitB
        && decide (digitsToNat 10 digitVal d5 < 4294967296)) = true := by
      rw [hd5empty, hd5all]
      simp [hd5lt]
    simp [parsePartitionField, parseU32, hcond]
  have hpu8 : parseU8 c3 = some (digitsToNat 10 digitVal c3) := by
    have hcond : (!c3.isEmpty && c3.all isDigitB
        && decide (digitsToNat 10 digitVal c3 < 256)) = true := by
      rw [hc3empty, hc3all]
      simp [hcl]
    simp [parseU8, hcond]
  have hup : uuidParseStr (g1 ++ '-' :: g2 ++ '-' :: g3 ++ '-' :: g4 ++ '-' :: g5)
      = some (digitsToNat 16 hexVal (g1 ++ g2 ++ g3 ++ g4 ++ g5)) := by
    have hre : (g1 ++ '-' :: g2 ++ '-' :: g3 ++ '-' :: g4 ++ '-' :: g5)
        = g1 ++ '-' :: (g2 ++ '-' :: (g3 ++ '-' :: (g4 ++ '-' :: (g5 ++ [])))) := by
      simp [List.append_assoc]
    rw [hre]
    have he := uuidScan_self g1 g2 g3 g4 g5 [] lg1 lg2 lg3 lg4 lg5 ag1 ag2 ag3 ag4 ag5
    simp only [uuidParseStr, he]
  obtain ⟨ct, hct, hcts⟩ := from_str_to_string hcomp3
  refine ⟨{ partition := digitsToNat 10 digitVal d5,
            uuid := digitsToNat 16 hexVal (g1 ++ g2 ++ g3 ++ g4 ++ g5),
            cluster := digitsToNat 10 digitVal c3,
            compression := ct }, ?_, ?_⟩
  · simp only [ParquetDeltaFile.from_string, hfc, hup, hpu8, hct, hpu32]
  · simp only [ParquetDeltaFile.name]
    have hA : pad 5 (natToDigits 10 digitChar (digitsToNat 10 digitVal d5)) = d5 := by
      have h' := pad_natToDigits_digitsToNat 10 digitChar digitVal (by omega) (by decide)
        d5 hd5ne hd5vals
      rwa [hd5len] at h'
    have hB : pad 3 (natToDigits 10 digitChar (digitsToNat 10 digitVal c3)) = c3 := by
      have h' := pad_natToDigits_digitsToNat 10 digitChar digitVal (by omega) (by decide)
        c3 hc3ne hc3vals
      rwa [hc3len] at h'
    have hC := uuidRender_groups g1 g2 g3 g4 g5 lg1 lg2 lg3 lg4 lg5 hhexgood
    rw [hA, hB, hC, hcts]
    rw [hs0, hr0eq, hr1eq, hr2eq, hr11eq, hr12eq, hr13eq, hr14eq, hr15eq]
    simp [List.append_assoc]

/-! ## Path validity -/

/-- The partition-key schema visible in a raw path: the key part (up to
the first `=`) of every directory component. -/
def schemaOf (p : Str) : List Str :=
  (splitOnChar '/' p).dropLast.map (fun d => d.takeWhile (fun c => c != '='))

/-- A raw path the builder accepts and reproduces: every directory
component contains an `=`, and the file name is canonical with lower-case
hex digits and an in-range cluster field. -/
def validPath (p : Str) : Bool :=
  (splitOnChar '/' p).dropLast.all (fun d => d.any (fun c => c == '='))
    && (match (splitOnChar '/' p).getLast? with
        | some last => nameRoundTrippable last
        | none => false)

theorem key_value_spec (d : Str) (h : d.any (fun c => c == '=') = true) :
    ∃ v, DeltaTree.key_value d = some (d.takeWhile (fun c => c != '='), v)
      ∧ d = d.takeWhile (fun c => c != '=') ++ '=' :: v := by
  cases hdw : d.dropWhile (fun c => c != '=') with
  | nil =>
    rw [List.dropWhile_eq_nil_iff] at hdw
    rw [List.any_eq_true] at h
    obtain ⟨c, hc, hceq⟩ := h
    have h2 := hdw c hc
    simp at hceq h2
    exact absurd hceq h2
  | cons e v =>
    have he : e = '=' := by
      have h3 := List.head?_dropWhile_not (fun c => c != '=') d
      rw [hdw] at h3
      simpa using h3
    refine ⟨v, ?_, ?_⟩
    · simp [DeltaTree.key_value, hdw]
    · conv_lhs => rw [← List.takeWhile_append_dropWhile (p := fun c => c != '=') (l := d)]
      rw [hdw, he]

/-- Parsing and re-rendering the directory components of a valid path. -/
theorem key_value_dirs (ds : List Str)
    (h : ∀ d ∈ ds, d.any (fun c => c == '=') = true) :
    ∃ segs : List PartitionPath,
      sequenceOpt (ds.map DeltaTree.key_value) = some segs
        ∧ segs.map Prod.fst = ds.map (fun d => d.takeWhile (fun c => c != '='))
        ∧ (segs.map (fun s => s.1 ++ '=' :: s.2 ++ ['/'])).flatten
            = (ds.map (fun d => d ++ ['/'])).flatten := by
  induction ds with
  | nil => exact ⟨[], rfl, rfl, rfl⟩
  | cons d ds ih =>
    obtain ⟨segs, hseq, hkeys, hrender⟩ := ih (fun x hx => h x (by simp [hx]))
    obtain ⟨v, hkv, hd⟩ := key_value_spec d (h d (by simp))
    refine ⟨(d.takeWhile (fun c => c != '='), v) :: segs, ?_, ?_, ?_⟩
    · simp [sequenceOpt, hkv, hseq]
    · simp [hkeys]
    · simp only [List.map_cons, List.flatten_cons, hrender]
      have hdr : (d.takeWhile (fun c => c != '=') ++ '=' :: v) ++ ['/'] = d ++ ['/'] := by
        rw [← hd]
      rw [← hdr]

/-- Parsing a valid raw path and rendering the entry back. -/
theorem parse_path_valid (p : Str) (h : validPath p = true) :
    ∃ e : Entry, DeltaTree.parse_path (splitOnChar '/' p) = some e
      ∧ renderEntry e = p
      ∧ e.1.map Prod.fst = schemaOf p := by
  simp only [validPath, Bool.and_eq_true] at h
  obtain ⟨hdirs, hlast⟩ := h
  rcases List.eq_nil_or_concat (splitOnChar '/' p) with hnil | ⟨ds, last, hsplit⟩
  · exact absurd hnil (splitOnChar_ne_nil '/' p)
  · rw [List.concat_eq_append] at hsplit
    rw [hsplit] at hdirs hlast
    simp only [List.getLast?_concat] at hlast
    obtain ⟨f, hfs, hfname⟩ := from_string_name_of_canonical last hlast
    simp only [List.dropLast_concat] at hdirs
    rw [List.all_eq_true] at hdirs
    obtain ⟨segs, hseq, hkeys, hrender⟩ := key_value_dirs ds hdirs
    have hp : p = (ds.map (fun d => d ++ ['/'])).flatten ++ last := by
      have hj := joinChar_splitOnChar '/' p
      rw [hsplit, joinChar_concat] at hj
      exact hj.symm
    refine ⟨(segs, f), ?_, ?_, ?_⟩
    · rw [hsplit]
      simp only [DeltaTree.parse_path, List.getLast?_concat, List.dropLast_concat, hfs, hseq]
    · simp only [renderEntry]
      rw [hrender, hfname, hp]
    · simp only [schemaOf]
      rw [hsplit, List.dropLast_concat]
      exact hkeys

/-! ## Evaluation lemmas for the well-founded builder -/

theorem build_children_nil : DeltaTree.build_children [] = some [] := by
  rw [DeltaTree.build_children.eq_def]

theorem build_partition_nil :
    DeltaTree.build_partition [] = some (TreeNode.FileEntries []) := by
  rw [DeltaTree.build_partition.eq_def]

theorem filesInSubtree_leaf (pre : Str) (files : List ParquetDeltaFile) :
    filesInSubtree pre (TreeNode.FileEntries files)
      = files.map (fun f => pre ++ f.name) := by
  rw [filesInSubtree.eq_def]

theorem build_partition_cons_nil (f : ParquetDeltaFile) (rest : List Entry) :
    DeltaTree.build_partition ((([] : List PartitionPath), f) :: rest)
      = some (TreeNode.FileEntries
          (((([] : List PartitionPath), f) :: rest).map (fun e => e.2))) := by
  rw [DeltaTree.build_partition.eq_def]

theorem build_partition_cons_seg (k v : Str) (tl : List PartitionPath)
    (f : ParquetDeltaFile) (rest : List Entry)
    (hcheck : ((((k, v) :: tl, f) : Entry) :: rest).all
      (fun e => e.1.length == ((k, v) :: tl).length && keyAt e == k) = true) :
    DeltaTree.build_partition ((((k, v) :: tl, f) : Entry) :: rest)
      = (DeltaTree.build_children ((((k, v) :: tl, f) : Entry) :: rest)).map (fun kids =>
          TreeNode.Partition k (kids.foldl (fun m kv => insertHM m kv.1 kv.2) [])) := by
  have hcheck' : ((((k, v) :: tl, f) : Entry) :: rest).all
      (fun e => e.1.length == ((((k, v) :: tl, f) : Entry)).1.length && keyAt e == k)
        = true := hcheck
  rw [DeltaTree.build_partition.eq_def]
  dsimp only
  rw [hcheck']
  rfl

theorem build_children_cons (k v : Str) (tl : List PartitionPath)
    (f : ParquetDeltaFile) (rest : List Entry) :
    DeltaTree.build_children ((((k, v) :: tl, f) : Entry) :: rest)
      = (match DeltaTree.build_partition ((tl, f) ::
              (rest.takeWhile (fun e' => headValue e' == v)).map (fun e' => (e'.1.tail, e'.2))),
            DeltaTree.build_children (rest.dropWhile (fun e' => headValue e' == v)) with
        | some t, some kids => some ((v, t) :: kids)
        | _, _ => none) := by
  rw [DeltaTree.build_children.eq_def]

/-! ## Run decomposition under the sort order -/

theorem dropWhile_head_not {α : Type} (p : α → Bool) :
    ∀ (l : List α) {x : α} {xs : List α}, l.dropWhile p = x :: xs → p x = false := by
  intro l
  induction l with
  | nil => intro x xs h; exact List.noConfusion h
  | cons a l ih =>
    intro x xs h
    rw [List.dropWhile_cons] at h
    by_cases hpa : p a = true
    · rw [if_pos hpa] at h
      exact ih h
    · rw [if_neg hpa] at h
      injection h with h1 _
      subst h1
      simpa using hpa

/-- After the maximal run of head value `v` is removed, every remaining
entry's head value is strictly larger (the slice is sorted and all
entries carry the same head key). -/
theorem dropWhile_headValue_lt {k v : Str} {tl : List PartitionPath}
    {f : ParquetDeltaFile} {rest : List Entry}
    (hs : List.Sorted entryLe ((((k, v) :: tl, f) : Entry) :: rest))
    (hsch : ∀ x ∈ rest, ∃ vx tx, x.1 = (k, vx) :: tx) :
    ∀ e' ∈ rest.dropWhile (fun e' => headValue e' == v), v < headValue e' := by
  intro e' he'
  have hsub : (rest.dropWhile (fun e' => headValue e' == v)).Sublist rest :=
    List.dropWhile_sublist _
  cases hdw : rest.dropWhile (fun e' => headValue e' == v) with
  | nil =>
    rw [hdw] at he'
    exact absurd he' (List.not_mem_nil _)
  | cons hd tl' =>
    rw [hdw] at he' hsub
    have hhd_mem : hd ∈ rest := hsub.mem (by simp)
    obtain ⟨hd1, hd2⟩ := hd
    obtain ⟨v1, t1, h1⟩ := hsch (hd1, hd2) hhd_mem
    simp only at h1
    subst h1
    have hfail : (fun e' => headValue e' == v) (((k, v1) :: t1, hd2) : Entry) = false :=
      dropWhile_head_not _ rest hdw
    have hne : v1 ≠ v := by simpa [headValue] using hfail
    have hle1 : entryLe ((k, v) :: tl, f) ((k, v1) :: t1, hd2) :=
      (List.sorted_cons.mp hs).1 _ hhd_mem
    have hvv1 : v < v1 :=
      lt_of_le_of_ne (entryLe_head_value_le hle1) (Ne.symm hne)
    rcases List.mem_cons.mp he' with he' | he'
    · rw [he']
      simpa [headValue] using hvv1
    · have hsorted' : List.Sorted entryLe ((((k, v1) :: t1, hd2) : Entry) :: tl') :=
        List.Pairwise.sublist hsub (List.sorted_cons.mp hs).2
      have hle2 : entryLe ((k, v1) :: t1, hd2) e' := (List.sorted_cons.mp hsorted').1 _ he'
      obtain ⟨e'1, e'2⟩ := e'
      have he'r : (e'1, e'2) ∈ rest := hsub.mem (by simp [he'])
      obtain ⟨v2, t2, h2⟩ := hsch (e'1, e'2) he'r
      simp only at h2
      subst h2
      have hv12 : v1 ≤ v2 := entryLe_head_value_le hle2
      simpa [headValue] using lt_of_lt_of_le hvv1 hv12

/-- Permutations of successful component lists come from permutations of
the underlying lists. -/
theorem perm_of_map_some {α : Type} {xs ys : List α}
    (h : List.Perm (xs.map some) (ys.map some)) : List.Perm xs ys := by
  have h2 := h.filterMap id
  simpa [List.filterMap_map] using h2

/-! ## The builder round trip

By strong induction on the total weight of the slice: a sorted slice in
which every entry carries the same key schema builds successfully, and
flattening the result reproduces exactly the rendered entries in slice
order.
-/

theorem build_spec : ∀ n : Nat,
    (∀ (entries : List Entry) (k : Str) (K : List Str),
      pathsWeight entries ≤ n →
      List.Sorted entryLe entries →
      (∀ e ∈ entries, e.1.map Prod.fst = k :: K) →
      ∃ kids, DeltaTree.build_children entries = some kids
        ∧ (kids.map Prod.fst).Nodup
        ∧ (∀ vt ∈ kids, ∃ e ∈ entries, headValue e = vt.1)
        ∧ ∀ pre : Str,
            kids.flatMap (fun vt => filesInSubtree (pre ++ k ++ '=' :: vt.1 ++ ['/']) vt.2)
              = entries.map (fun e => pre ++ renderEntry e))
    ∧ (∀ (entries : List Entry) (K : List Str),
      pathsWeight entries ≤ n →
      List.Sorted entryLe entries →
      (∀ e ∈ entries, e.1.map Prod.fst = K) →
      ∃ t, DeltaTree.build_partition entries = some t
        ∧ ∀ pre : Str, filesInSubtree pre t = entries.map (fun e => pre ++ renderEntry e)) := by
  intro n
  induction n with
  | zero =>
    constructor
    · intro entries k K hw hs hsch
      cases entries with
      | nil =>
        exact ⟨[], build_children_nil, List.nodup_nil,
          fun vt hvt => absurd hvt (List.not_mem_nil _), fun pre => by simp⟩
      | cons e rest =>
        rw [pathsWeight_cons] at hw
        simp only [entryWeight] at hw
        omega
    · intro entries K hw hs hsch
      cases entries with
      | nil =>
        exact ⟨TreeNode.FileEntries [], build_partition_nil,
          fun pre => by rw [filesInSubtree_leaf, List.map_nil, List.map_nil]⟩
      | cons e rest =>
        rw [pathsWeight_cons] at hw
        simp only [entryWeight] at hw
        omega
  | succ n ih =>
    obtain ⟨ihc, ihp⟩ := ih
    have hchildren : ∀ (entries : List Entry) (k : Str) (K : List Str),
        pathsWeight entries ≤ n + 1 →
        List.Sorted entryLe entries →
        (∀ e ∈ entries, e.1.map Prod.fst = k :: K) →
        ∃ kids, DeltaTree.build_children entries = some kids
          ∧ (kids.map Prod.fst).Nodup
          ∧ (∀ vt ∈ kids, ∃ e ∈ entries, headValue e = vt.1)
          ∧ ∀ pre : Str,
              kids.flatMap (fun vt => filesInSubtree (pre ++ k ++ '=' :: vt.1 ++ ['/']) vt.2)
                = entries.map (fun e => pre ++ renderEntry e) := by
      intro entries k K hw hs hsch
      cases entries with
      | nil =>
        exact ⟨[], build_children_nil, List.nodup_nil,
          fun vt hvt => absurd hvt (List.not_mem_nil _), fun pre => by simp⟩
      | cons e rest =>
        obtain ⟨e1, f⟩ := e
        have hhd := hsch (e1, f) (by simp)
        cases e1 with
        | nil => exact absurd hhd (by simp)
        | cons s tl =>
          obtain ⟨k0, v⟩ := s
          simp only [List.map_cons, List.cons.injEq] at hhd
          obtain ⟨hk0, htl⟩ := hhd
          have hk0' : k = k0 := hk0.symm
          subst hk0'
          have hrunsub : (rest.takeWhile (fun e' => headValue e' == v)).Sublist rest :=
            List.takeWhile_sublist _
          have hrestsub : (rest.dropWhile (fun e' => headValue e' == v)).Sublist rest :=
            List.dropWhile_sublist _
          have hsch_pairs : ∀ x ∈ rest, ∃ vx tx, x.1 = (k, vx) :: tx := by
            intro x hx
            obtain ⟨x1, x2⟩ := x
            have hsx := hsch _ (List.mem_cons_of_mem _ hx)
            cases x1 with
            | nil => exact absurd hsx (by simp)
            | cons sx tx =>
              obtain ⟨kx, vx⟩ := sx
              simp only [List.map_cons, List.cons.injEq] at hsx
              exact ⟨vx, tx, by simp [hsx.1]⟩
          have hrun_head : ∀ x ∈ (((k, v) :: tl, f) : Entry) ::
              rest.takeWhile (fun e' => headValue e' == v), ∃ t, x.1 = (k, v) :: t := by
            intro x hx
            rcases List.mem_cons.mp hx with hx | hx
            · exact ⟨tl, by rw [hx]⟩
            · obtain ⟨x1, x2⟩ := x
              have hpv := List.mem_takeWhile_imp hx
              obtain ⟨vx, tx, hx1⟩ := hsch_pairs (x1, x2) (hrunsub.mem hx)
              simp only at hx1
              subst hx1
              have hvx : vx = v := by simpa [headValue] using hpv
              exact ⟨tx, by simp [hvx]⟩
          have hs_erun : List.Sorted entryLe ((((k, v) :: tl, f) : Entry) ::
              rest.takeWhile (fun e' => headValue e' == v)) :=
            List.Pairwise.sublist (List.Sublist.cons₂ _ hrunsub) hs
          have hs_next : List.Sorted entryLe ((((tl, f) : Entry)) ::
              (rest.takeWhile (fun e' => headValue e' == v)).map (fun e' => (e'.1.tail, e'.2))) := by
            have h := sorted_tailMap hs_erun hrun_head
            simpa only [List.map_cons, List.tail_cons] using h
          have hsch_next : ∀ x ∈ (((tl, f) : Entry)) ::
              (rest.takeWhile (fun e' => headValue e' == v)).map (fun e' => (e'.1.tail, e'.2)),
              x.1.map Prod.fst = K := by
            intro x hx
            rcases List.mem_cons.mp hx with hx | hx
            · rw [hx]; exact htl
            · obtain ⟨y, hy, hyx⟩ := List.mem_map.mp hx
              obtain ⟨t, hyt⟩ := hrun_head y (List.mem_cons_of_mem _ hy)
              have hsy := hsch y (List.mem_cons_of_mem _ (hrunsub.mem hy))
              rw [hyt] at hsy
              simp only [List.map_cons, List.cons.injEq] at hsy
              rw [← hyx]
              simp only [hyt, List.tail_cons]
              exact hsy.2
          have hmeasure : 2 * pathsWeight ((((tl, f) : Entry)) ::
              (rest.takeWhile (fun e' => headValue e' == v)).map (fun e' => (e'.1.tail, e'.2))) + 1
              < 2 * pathsWeight ((((k, v) :: tl, f) : Entry) :: rest) :=
            buildMeasureRun _ _ _ _ _ _ rfl
          have hw_next : pathsWeight ((((tl, f) : Entry)) ::
              (rest.takeWhile (fun e' => headValue e' == v)).map (fun e' => (e'.1.tail, e'.2))) ≤ n := by
            omega
          have hmeasure2 : 2 * pathsWeight (rest.dropWhile (fun e' => headValue e' == v))
              < 2 * pathsWeight ((((k, v) :: tl, f) : Entry) :: rest) :=
            buildMeasureRest _ _ _
          have hw_rest : pathsWeight (rest.dropWhile (fun e' => headValue e' == v)) ≤ n := by
            omega
          obtain ⟨t, hbt, hflat_t⟩ := ihp _ K hw_next hs_next hsch_next
          have hsch_rest : ∀ x ∈ rest.dropWhile (fun e' => headValue e' == v),
              x.1.map Prod.fst = k :: K :=
            fun x hx => hsch x (List.mem_cons_of_mem _ (hrestsub.mem hx))
          have hs_rest' : List.Sorted entryLe (rest.dropWhile (fun e' => headValue e' == v)) :=
            List.Pairwise.sublist hrestsub (List.sorted_cons.mp hs).2
          obtain ⟨kids, hbk, hnd, horig, hflat_k⟩ := ihc _ k K hw_rest hs_rest' hsch_rest
          refine ⟨(v, t) :: kids, ?_, ?_, ?_, ?_⟩
          · rw [build_children_cons, hbt, hbk]
          · simp only [List.map_cons, List.nodup_cons]
            refine ⟨?_, hnd⟩
            intro hvmem
            obtain ⟨vt, hvt, hvtv⟩ := List.mem_map.mp hvmem
            obtain ⟨e', he', hev⟩ := horig vt hvt
            have hlt := dropWhile_headValue_lt hs hsch_pairs e' he'
            rw [hev, hvtv] at hlt
            exact absurd hlt (lt_irrefl v)
          · intro vt hvt
            rcases List.mem_cons.mp hvt with h | h
            · exact ⟨((k, v) :: tl, f), by simp, by simp [headValue, h]⟩
            · obtain ⟨e', he', hev⟩ := horig vt h
              exact ⟨e', List.mem_cons_of_mem _ (hrestsub.mem he'), hev⟩
          · intro pre
            rw [List.flatMap_cons]
            dsimp only
            rw [hflat_t (pre ++ k ++ '=' :: v ++ ['/']), hflat_k pre, List.map_cons, List.map_map]
            conv_rhs => rw [List.map_cons,
              ← List.takeWhile_append_dropWhile (fun e' => headValue e' == v) rest,
              List.map_append]
            rw [List.cons_append]
            congr 1
            · simp [renderEntry_cons, List.append_assoc]
            · congr 1
              apply List.map_congr_left
              intro x hx
              obtain ⟨tx, htx⟩ := hrun_head x (List.mem_cons_of_mem _ hx)
              obtain ⟨x1, x2⟩ := x
              simp only at htx
              subst htx
              simp [Function.comp, renderEntry_cons, List.append_assoc]
    have hpartition : ∀ (entries : List Entry) (K : List Str),
        pathsWeight entries ≤ n + 1 →
        List.Sorted entryLe entries →
        (∀ e ∈ entries, e.1.map Prod.fst = K) →
        ∃ t, DeltaTree.build_partition entries = some t
          ∧ ∀ pre : Str, filesInSubtree pre t = entries.map (fun e => pre ++ renderEntry e) := by
      intro entries K hw hs hsch
      cases entries with
      | nil =>
        exact ⟨TreeNode.FileEntries [], build_partition_nil,
          fun pre => by rw [filesInSubtree_leaf, List.map_nil, List.map_nil]⟩
      | cons e rest =>
        obtain ⟨e1, f⟩ := e
        have hhd := hsch (e1, f) (by simp)
        cases e1 with
        | nil =>
          have hK : K = [] := by simpa using hhd.symm
          subst hK
          refine ⟨TreeNode.FileEntries ((((([] : List PartitionPath), f) : Entry) :: rest).map
            (fun e => e.2)), build_partition_cons_nil f rest, ?_⟩
          intro pre
          rw [filesInSubtree_leaf, List.map_map]
          apply List.map_congr_left
          intro x hx
          have hx1 : x.1 = [] := List.map_eq_nil_iff.mp (hsch x hx)
          obtain ⟨x1, x2⟩ := x
          simp only at hx1
          subst hx1
          simp [renderEntry, Function.comp]
        | cons s tl =>
          obtain ⟨k0, v⟩ := s
          have hK : K = k0 :: tl.map Prod.fst := by simpa using hhd.symm
          subst hK
          have hcheck : (((((k0, v) :: tl, f) : Entry)) :: rest).all
              (fun e => e.1.length == ((k0, v) :: tl).length && keyAt e == k0) = true := by
            rw [List.all_eq_true]
            intro x hx
            obtain ⟨x1, x2⟩ := x
            have hsx := hsch _ hx
            cases x1 with
            | nil => exact absurd hsx (by simp)
            | cons sx tx =>
              obtain ⟨kx, vx⟩ := sx
              simp only [List.map_cons, List.cons.injEq] at hsx
              obtain ⟨hkx, htx⟩ := hsx
              subst hkx
              simp only [keyAt, List.length_cons, Bool.and_eq_true, beq_iff_eq]
              constructor
              · have h1 : (tx.map Prod.fst).length = (tl.map Prod.fst).length := by rw [htx]
                simp only [List.length_map] at h1
                omega
              · trivial
          obtain ⟨kids, hbk, hnd, _, hflat⟩ :=
            hchildren (((((k0, v) :: tl, f) : Entry)) :: rest) k0 (tl.map Prod.fst) hw hs hsch
          have hfold : kids.foldl (fun m kv => insertHM m kv.1 kv.2) [] = kids := by
            have h := foldl_insertHM kids [] hnd
              (by intro x hx y hy; exact absurd hy (List.not_mem_nil _))
            simpa using h
          refine ⟨TreeNode.Partition k0 kids, ?_, ?_⟩
          · rw [build_partition_cons_seg k0 v tl f rest hcheck, hbk]
            show some (TreeNode.Partition k0 (kids.foldl (fun m kv => insertHM m kv.1 kv.2) []))
              = some (TreeNode.Partition k0 kids)
            rw [hfold]
          · intro pre
            rw [filesInSubtree_partition, hflat pre]
    exact ⟨hchildren, hpartition⟩

/-- Sorted uniform-schema slices build and flatten back to their renderings. -/
theorem build_partition_roundtrip (entries : List Entry) (K : List Str)
    (hs : List.Sorted entryLe entries)
    (hsch : ∀ e ∈ entries, e.1.map Prod.fst = K) :
    ∃ t, DeltaTree.build_partition entries = some t
      ∧ ∀ pre : Str, filesInSubtree pre t = entries.map (fun e => pre ++ renderEntry e) :=
  (build_spec (pathsWeight entries)).2 entries K le_rfl hs hsch

/-- Parsing a list of valid uniform-schema paths succeeds componentwise,
and the parsed entries render back to the original paths in order. -/
theorem parse_components (S : List Str) :
    ∀ P : List Str, (∀ p ∈ P, validPath p = true) → (∀ p ∈ P, schemaOf p = S) →
    ∃ components : List Entry,
      sequenceOpt (P.map (fun f => DeltaTree.parse_path (splitOnChar '/' f))) = some components
      ∧ components.map renderEntry = P
      ∧ ∀ e ∈ components, e.1.map Prod.fst = S := by
  intro P
  induction P with
  | nil => exact fun _ _ => ⟨[], rfl, rfl, fun e he => absurd he (List.not_mem_nil _)⟩
  | cons p P ih =>
    intro hval hsch
    obtain ⟨e, hpe, hre, hse⟩ := parse_path_valid p (hval p (by simp))
    obtain ⟨cs, hcs, hrcs, hscs⟩ :=
      ih (fun q hq => hval q (by simp [hq])) (fun q hq => hsch q (by simp [hq]))
    refine ⟨e :: cs, ?_, ?_, ?_⟩
    · simp only [List.map_cons, hpe, sequenceOpt, hcs]
    · simp only [List.map_cons, hrcs, hre]
    · intro x hx
      rcases List.mem_cons.mp hx with hx | hx
      · rw [hx, hse]
        exact hsch p (by simp)
      · exact hscs x hx

/-- `from_paths` followed by `files` returns the input up to permutation,
for valid uniform-schema inputs. -/
theorem from_paths_files_perm (P S : List Str)
    (hval : ∀ p ∈ P, validPath p = true) (hsch : ∀ p ∈ P, schemaOf p = S) :
    ∃ t, DeltaTree.from_paths P = some t ∧ List.Perm t.files P := by
  cases P with
  | nil =>
    refine ⟨⟨TreeNode.FileEntries []⟩, rfl, ?_⟩
    show List.Perm (filesInSubtree [] (TreeNode.FileEntries [])) []
    rw [filesInSubtree_leaf, List.map_nil]
  | cons p P' =>
    obtain ⟨components, hseq, hrender, hschema⟩ := parse_components S (p :: P') hval hsch
    have hsorted : List.Sorted entryLe (List.insertionSort entryLe components) :=
      List.sorted_insertionSort entryLe components
    have hperm : List.Perm (List.insertionSort entryLe components) components :=
      List.perm_insertionSort entryLe components
    have hschema' : ∀ e ∈ List.insertionSort entryLe components, e.1.map Prod.fst = S :=
      fun e he => hschema e (hperm.mem_iff.mp he)
    obtain ⟨root, hroot, hflat⟩ := build_partition_roundtrip _ S hsorted hschema'
    refine ⟨⟨root⟩, ?_, ?_⟩
    · simp only [DeltaTree.from_paths, List.isEmpty_cons]
      rw [if_neg (by simp : ¬((false : Bool) = true))]
      rw [hseq]
      dsimp only
      rw [hroot]
    · show List.Perm (filesInSubtree [] root) (p :: P')
      rw [hflat []]
      have h1 : (List.insertionSort entryLe components).map (fun e => [] ++ renderEntry e)
          = (List.insertionSort entryLe components).map renderEntry :=
        List.map_congr_left (fun e he => by rw [List.nil_append])
      rw [h1]
      have h2 := hperm.map renderEntry
      rw [hrender] at h2
      exact h2

/-! ## Key/value split characterisation -/

theorem takeWhile_key (k v : Str) (hk : ('=' : Char) ∉ k) :
    (k ++ '=' :: v).takeWhile (fun c => c != '=') = k := by
  induction k with
  | nil => simp
  | cons c k ih =>
    have hc : c ≠ '=' := fun h => hk (by simp [h])
    simp only [List.cons_append, List.takeWhile_cons]
    rw [if_pos (by simp [hc])]
    rw [ih (fun h => hk (List.mem_cons_of_mem _ h))]

theorem dropWhile_key (k v : Str) (hk : ('=' : Char) ∉ k) :
    (k ++ '=' :: v).dropWhile (fun c => c != '=') = '=' :: v := by
  induction k with
  | nil => simp
  | cons c k ih =>
    have hc : c ≠ '=' := fun h => hk (by simp [h])
    simp only [List.cons_append, List.dropWhile_cons]
    rw [if_pos (by simp [hc])]
    exact ih (fun h => hk (List.mem_cons_of_mem _ h))

theorem key_value_first_split (k v : Str) (hk : ('=' : Char) ∉ k) :
    DeltaTree.key_value (k ++ '=' :: v) = some (k, v) := by
  simp only [DeltaTree.key_value, dropWhile_key k v hk, takeWhile_key k v hk]

theorem key_value_no_sep (d : Str) (hd : ('=' : Char) ∉ d) :
    DeltaTree.key_value d = none := by
  have h : d.dropWhile (fun c => c != '=') = [] := by
    rw [List.dropWhile_eq_nil_iff]
    intro x hx
    rw [bne_iff_ne]
    intro hc
    exact hd (hc ▸ hx)
  simp only [DeltaTree.key_value, h]

/-! ## Leaf depths and spec-grammar path validity -/

/-- The depths of all `FileEntries` leaves of a tree, in traversal order. -/
def leafDepths (node : TreeNode) : List Nat :=
  match node with
  | TreeNode.FileEntries _ => [0]
  | TreeNode.Partition _ [] => []
  | TreeNode.Partition nm ((_, child) :: rest) =>
    (leafDepths child).map (· + 1) ++ leafDepths (TreeNode.Partition nm rest)
termination_by sizeOf node
decreasing_by
  · simp only [TreeNode.Partition.sizeOf_spec, List.cons.sizeOf_spec, Prod.mk.sizeOf_spec]
    omega
  · simp only [TreeNode.Partition.sizeOf_spec, List.cons.sizeOf_spec, Prod.mk.sizeOf_spec]
    omega

/-- A raw path that is valid in the sense of the SPECIFICATION text: every
non-final component carries an `=`, and the file name matches the
section-6 canonical grammar (anchored at both ends, case-insensitive hex).
This definition follows the spec's words; `validPath` is the corrected
variant whose names also round-trip through the code. -/
def specValidPath (p : Str) : Bool :=
  (splitOnChar '/' p).dropLast.all (fun d => d.any (fun c => c == '='))
    && (match (splitOnChar '/' p).getLast? with
        | some last => spec_canonicalName last
        | none => false)

/-! ## Concrete claim inputs -/

def c1wPaths : List Str :=
  ["a=1/part-00000-00000000-0000-0000-0000-000000000001.c000.snappy.parquet".toList,
   "a=2/part-00001-00000000-0000-0000-0000-000000000002.c001.gzip.parquet".toList]

def c1xPaths : List Str :=
  ["part-00000-0000000A-0000-0000-0000-000000000000.c000.snappy.parquet".toList]

def c1xFile : ParquetDeltaFile :=
  { partition := 0, uuid := 0xA000000000000000000000000, cluster := 0,
    compression := CompressionType.SNAPPY }

def c2wName : Str :=
  "part-00042-deadbeef-dead-beef-dead-beefdeadbeef.c007.gzip.parquet".toList

def c2xUpper : Str :=
  "part-00000-ABCDEF01-0000-0000-0000-000000000000.c000.none.parquet".toList

def c2xBigCluster : Str :=
  "part-00000-00000000-0000-0000-0000-000000000000.c300.snappy.parquet".toList

def c3TrailingJunk : Str :=
  "part-00000-11111111-2222-3333-4444-555555555555.c000.snappy.parquetEXTRA".toList

def c3WildDot : Str :=
  "part-00000-11111111-2222-3333-4444-555555555555.c000.snappyXparquet".toList

def c4aName : Str :=
  "part-00007-aaaaaaaa-bbbb-cccc-dddd-eeeeeeeeeeee.c000.none.parquet".toList

def c4bPath : Str :=
  "x=1/part-00008-aaaaaaaa-bbbb-cccc-dddd-eeeeeeeeeeef.c001.snappy.parquet".toList

def c4Paths : List Str := [c4aName, c4bPath]

def c4aFile : ParquetDeltaFile :=
  { partition := 7, uuid := 0xaaaaaaaabbbbccccddddeeeeeeeeeeee, cluster := 0,
    compression := CompressionType.NONE }

def c4bFile : ParquetDeltaFile :=
  { partition := 8, uuid := 0xaaaaaaaabbbbccccddddeeeeeeeeeeef, cluster := 1,
    compression := CompressionType.SNAPPY }

def c5P : List Str :=
  ["k=1/part-00011-12345678-0000-0000-0000-000000000011.c000.none.parquet".toList,
   "k=2/part-00012-12345678-0000-0000-0000-000000000012.c002.snappy.parquet".toList]

def c5Q : List Str :=
  ["k=2/part-00012-12345678-0000-0000-0000-000000000012.c002.snappy.parquet".toList,
   "k=1/part-00011-12345678-0000-0000-0000-000000000011.c000.none.parquet".toList]

def c6aName : Str :=
  "part-00009-12121212-3434-5656-7878-909090909090.c002.gzip.parquet".toList

def c6bPath : Str :=
  "z=9/part-00010-12121212-3434-5656-7878-909090909091.c003.none.parquet".toList

def c6Paths : List Str := [c6aName, c6bPath]

def c6aFile : ParquetDeltaFile :=
  { partition := 9, uuid := 0x12121212343456567878909090909090, cluster := 2,
    compression := CompressionType.GZIP }

def c6bFile : ParquetDeltaFile :=
  { partition := 10, uuid := 0x12121212343456567878909090909091, cluster := 3,
    compression := CompressionType.NONE }

def c10xName : Str :=
  "part-00002-fedcba98-7654-3210-fedc-ba9876543210.c777.gzip.parquet".toList

/-! ## The claims -/

/-- Claim C1 (amended): for every finite, non-empty collection of raw
paths that are valid with round-trippable file names (each path a
sequence of `key=value` segments followed by a grammar-matching name
whose hex digits are lower case and whose cluster field is below 256)
and that share a uniform partition schema, `from_paths` succeeds and
`files` of the result is a permutation of the input (order not
preserved, duplicates kept).  The original claim, quantified over all
grammar-valid names, is refuted by `C1_counterexample`. -/
theorem C1_tree_roundtrip (P : List Str) (S : List Str) (hne : P ≠ [])
    (hval : ∀ p ∈ P, validPath p = true) (hsch : ∀ p ∈ P, schemaOf p = S) :
    ∃ t, DeltaTree.from_paths P = some t ∧ List.Perm t.files P :=
  from_paths_files_perm P S hval hsch

/-- Witness for C1 at a two-path single-key input. -/
theorem C1_witness :
    (c1wPaths ≠ []) ∧ (∀ p ∈ c1wPaths, validPath p = true)
    ∧ (∀ p ∈ c1wPaths, schemaOf p = ["a".toList])
    ∧ ∃ t, DeltaTree.from_paths c1wPaths = some t ∧ List.Perm t.files c1wPaths :=
  ⟨by decide, by decide, by decide,
    C1_tree_roundtrip c1wPaths ["a".toList] (by decide) (by decide) (by decide)⟩

/-- Counterexample to the unamended C1: a one-path collection whose name
matches the section-6 grammar (upper-case hex digit `A`), has a uniform
(empty) schema, builds successfully — but `files` renders the uuid in
lower case, so the output is not a permutation of the input. -/
theorem C1_counterexample :
    (∀ p ∈ c1xPaths, specValidPath p = true)
    ∧ c1xPaths ≠ []
    ∧ (∀ p ∈ c1xPaths, schemaOf p = ([] : List Str))
    ∧ ∃ t, DeltaTree.from_paths c1xPaths = some t
        ∧ ¬ List.Perm (DeltaTree.files t) c1xPaths := by
  refine ⟨by decide, by decide, by decide,
    ⟨TreeNode.FileEntries [c1xFile]⟩, ?_, ?_⟩
  · rw [DeltaTree.from_paths.eq_def]
    rw [if_neg (by decide)]
    have hseq : sequenceOpt (List.map (fun f => DeltaTree.parse_path (splitOnChar '/' f)) c1xPaths)
        = some [(([] : List PartitionPath), c1xFile)] := by decide
    rw [hseq]
    dsimp only
    have hsort : List.insertionSort entryLe [(([] : List PartitionPath), c1xFile)]
        = [(([] : List PartitionPath), c1xFile)] := by decide
    rw [hsort, build_partition_cons_nil c1xFile []]
    rfl
  · have hfiles : DeltaTree.files ⟨TreeNode.FileEntries [c1xFile]⟩ = [c1xFile.name] := by
      show filesInSubtree [] (TreeNode.FileEntries [c1xFile]) = [c1xFile.name]
      rw [filesInSubtree_leaf]
      rfl
    rw [hfiles]
    decide

/-- Claim C2 (amended): for every name matching the canonical grammar
whose hex digits are all lower case and whose 3-digit cluster field is
numerically below 256, `from_string` succeeds and `name` of the result
is the original string.  The original claim, which also covers
upper-case hex (and silently relies on every grammar cluster parsing as
`u8`), is refuted by `C2_counterexample`. -/
theorem C2_name_roundtrip (s : Str) (h : nameRoundTrippable s = true) :
    ∃ f, ParquetDeltaFile.from_string s = some f ∧ f.name = s :=
  from_string_name_of_canonical s h

/-- Witness for C2 at a concrete lower-case name. -/
theorem C2_witness :
    nameRoundTrippable c2wName = true
    ∧ ∃ f, ParquetDeltaFile.from_string c2wName = some f ∧ f.name = c2wName :=
  ⟨by decide, C2_name_roundtrip c2wName (by decide)⟩

/-- Counterexample to the unamended C2: an upper-case-hex name matches
the section-6 grammar but renders back in lower case, and a grammar name
with cluster field 300 makes the parse panic (`none` in the model)
instead of producing a descriptor to render. -/
theorem C2_counterexample :
    (spec_canonicalName c2xUpper = true
      ∧ (ParquetDeltaFile.from_string c2xUpper).map ParquetDeltaFile.name ≠ some c2xUpper)
    ∧ (spec_canonicalName c2xBigCluster = true
      ∧ ParquetDeltaFile.from_string c2xBigCluster = none) := by
  exact ⟨⟨by decide, by decide⟩, ⟨by decide, by decide⟩⟩

/-- Claim C3 (code bug): the compiled regex is not anchored at the end
and the dot before `parquet` is unescaped, so `from_string` accepts
strings outside the canonical grammar: a name with trailing junk after
`.parquet`, and a name with `X` in place of the final literal dot. -/
theorem C3_regex_not_end_anchored :
    (spec_canonicalName c3TrailingJunk = false
      ∧ (ParquetDeltaFile.from_string c3TrailingJunk).isSome = true)
    ∧ (spec_canonicalName c3WildDot = false
      ∧ (ParquetDeltaFile.from_string c3WildDot).isSome = true) := by
  exact ⟨⟨by decide, by decide⟩, ⟨by decide, by decide⟩⟩

/-- Claim C4 (code bug): a collection whose two entries disagree on the
number of partition segments (the first, sorted least, is exhausted at
depth 0 while the other still has a segment) is NOT rejected: the leaf
branch of `build_partition` has no assertion, so `from_paths` silently
returns a tree instead of failing with `SchemaMismatchError`. -/
theorem C4_schema_mismatch_silent :
    (∀ p ∈ c4Paths, validPath p = true)
    ∧ schemaOf c4aName ≠ schemaOf c4bPath
    ∧ (DeltaTree.from_paths c4Paths).isSome = true := by
  refine ⟨by decide, by decide, ?_⟩
  have hfp : DeltaTree.from_paths c4Paths
      = some ⟨TreeNode.FileEntries [c4aFile, c4bFile]⟩ := by
    rw [DeltaTree.from_paths.eq_def]
    rw [if_neg (by decide)]
    have hseq : sequenceOpt (List.map (fun f => DeltaTree.parse_path (splitOnChar '/' f)) c4Paths)
        = some [(([] : List PartitionPath), c4aFile),
                ([("x".toList, "1".toList)], c4bFile)] := by decide
    rw [hseq]
    dsimp only
    have hsort : List.insertionSort entryLe
        [(([] : List PartitionPath), c4aFile), ([("x".toList, "1".toList)], c4bFile)]
        = [(([] : List PartitionPath), c4aFile), ([("x".toList, "1".toList)], c4bFile)] := by
      decide
    rw [hsort, build_partition_cons_nil c4aFile [([("x".toList, "1".toList)], c4bFile)]]
    rfl
  rw [hfp]
  rfl

/-- Claim C5: `from_paths` is invariant under permutation of its input,
because the builder sorts internally before partitioning (a failing
parse fails for every ordering alike). -/
theorem C5_order_independence (P P' : List Str) (h : List.Perm P P') :
    DeltaTree.from_paths P = DeltaTree.from_paths P' := by
  have hlen := h.length_eq
  by_cases hP : P = []
  · subst hP
    have hP' : P' = [] := List.length_eq_zero.mp (by simpa using hlen.symm)
    subst hP'
    rfl
  · have hP' : P' ≠ [] := by
      intro hc
      subst hc
      exact hP (List.length_eq_zero.mp (by simpa using hlen))
    simp only [DeltaTree.from_paths]
    rw [if_neg (by simp [List.isEmpty_iff, hP]), if_neg (by simp [List.isEmpty_iff, hP'])]
    have hmapperm : List.Perm (P.map (fun f => DeltaTree.parse_path (splitOnChar '/' f)))
        (P'.map (fun f => DeltaTree.parse_path (splitOnChar '/' f))) := h.map _
    cases hseq : sequenceOpt (P.map (fun f => DeltaTree.parse_path (splitOnChar '/' f))) with
    | none =>
      have hn : none ∈ P.map (fun f => DeltaTree.parse_path (splitOnChar '/' f)) :=
        (sequenceOpt_eq_none_iff _).mp hseq
      have hn' : none ∈ P'.map (fun f => DeltaTree.parse_path (splitOnChar '/' f)) :=
        hmapperm.mem_iff.mp hn
      rw [(sequenceOpt_eq_none_iff _).mpr hn']
    | some xs =>
      have hx : P.map (fun f => DeltaTree.parse_path (splitOnChar '/' f)) = xs.map some :=
        sequenceOpt_some_eq _ xs hseq
      cases hseq' : sequenceOpt (P'.map (fun f => DeltaTree.parse_path (splitOnChar '/' f))) with
      | none =>
        have hn' := (sequenceOpt_eq_none_iff _).mp hseq'
        have hn : none ∈ P.map (fun f => DeltaTree.parse_path (splitOnChar '/' f)) :=
          hmapperm.mem_iff.mpr hn'
        rw [hx] at hn
        obtain ⟨a, _, ha⟩ := List.mem_map.mp hn
        exact absurd ha (by simp)
      | some ys =>
        have hy : P'.map (fun f => DeltaTree.parse_path (splitOnChar '/' f)) = ys.map some :=
          sequenceOpt_some_eq _ ys hseq'
        have hxy : List.Perm xs ys := by
          apply perm_of_map_some
          rw [← hx, ← hy]
          exact hmapperm
        have hsorteq : List.insertionSort entryLe xs = List.insertionSort entryLe ys :=
          List.eq_of_perm_of_sorted
            (((List.perm_insertionSort entryLe xs).trans hxy).trans
              (List.perm_insertionSort entryLe ys).symm)
            (List.sorted_insertionSort entryLe xs)
            (List.sorted_insertionSort entryLe ys)
        dsimp only
        rw [hsorteq]

/-- Witness for C5 at a concrete two-path input and its reversal. -/
theorem C5_witness :
    List.Perm c5P c5Q ∧ DeltaTree.from_paths c5P = DeltaTree.from_paths c5Q :=
  ⟨by decide, C5_order_independence c5P c5Q (by decide)⟩

/-- Claim C6 (code bug): a mixed-segment-count input is built silently
(see C4), and the resulting tree's only leaf is at depth 0 even though
an input path carries one partition segment — so the promised `leaf
depth = segment count of every input path` invariant fails on a tree
that build returns successfully. -/
theorem C6_leaf_depth_not_segment_count :
    (∀ p ∈ c6Paths, validPath p = true)
    ∧ ∃ t, DeltaTree.from_paths c6Paths = some t
        ∧ leafDepths t.root = [0]
        ∧ ∃ p ∈ c6Paths, (schemaOf p).length = 1 := by
  refine ⟨by decide, ⟨TreeNode.FileEntries [c6aFile, c6bFile]⟩, ?_, ?_, ?_⟩
  · rw [DeltaTree.from_paths.eq_def]
    rw [if_neg (by decide)]
    have hseq : sequenceOpt (List.map (fun f => DeltaTree.parse_path (splitOnChar '/' f)) c6Paths)
        = some [(([] : List PartitionPath), c6aFile),
                ([("z".toList, "9".toList)], c6bFile)] := by decide
    rw [hseq]
    dsimp only
    have hsort : List.insertionSort entryLe
        [(([] : List PartitionPath), c6aFile), ([("z".toList, "9".toList)], c6bFile)]
        = [(([] : List PartitionPath), c6aFile), ([("z".toList, "9".toList)], c6bFile)] := by
      decide
    rw [hsort, build_partition_cons_nil c6aFile [([("z".toList, "9".toList)], c6bFile)]]
    rfl
  · show leafDepths (TreeNode.FileEntries [c6aFile, c6bFile]) = [0]
    rw [leafDepths.eq_def]
  · exact ⟨c6bPath, by decide, by decide⟩

/-- Claim C7: `key_value` splits a component at the FIRST `=` into the
part before (key) and everything after (value, which may itself contain
`=`), and fails on a component with no `=` at all; in particular on the
spec's three examples. -/
theorem C7_key_value_split (k v d : Str) (hk : ('=' : Char) ∉ k) (hd : ('=' : Char) ∉ d) :
    DeltaTree.key_value (k ++ '=' :: v) = some (k, v)
    ∧ DeltaTree.key_value d = none
    ∧ DeltaTree.key_value ("a=13".toList) = some ("a".toList, "13".toList)
    ∧ DeltaTree.key_value ("some-key=some-value-with-=-sign".toList)
        = some ("some-key".toList, "some-value-with-=-sign".toList)
    ∧ DeltaTree.key_value ("no-equals-here".toList) = none :=
  ⟨key_value_first_split k v hk, key_value_no_sep d hd, by decide, by decide, by decide⟩

/-- Witness for C7 at concrete key, value and separator-free strings. -/
theorem C7_witness :
    (('=' : Char) ∉ "key".toList) ∧ (('=' : Char) ∉ "plain".toList)
    ∧ (DeltaTree.key_value ("key".toList ++ '=' :: "val=ue".toList)
        = some ("key".toList, "val=ue".toList)
      ∧ DeltaTree.key_value ("plain".toList) = none
      ∧ DeltaTree.key_value ("a=13".toList) = some ("a".toList, "13".toList)
      ∧ DeltaTree.key_value ("some-key=some-value-with-=-sign".toList)
          = some ("some-key".toList, "some-value-with-=-sign".toList)
      ∧ DeltaTree.key_value ("no-equals-here".toList) = none) :=
  ⟨by decide, by decide,
    C7_key_value_split ("key".toList) ("val=ue".toList) ("plain".toList)
      (by decide) (by decide)⟩

/-- Claim C8: the partition-index field of `from_string` is parsed with
`unwrap_or_else(u32::max_value())`: an all-digit field whose value
overflows `u32` does not fail the parse but is clamped to the maximum
representable value 4294967295.  (Under the compiled regex the field is
exactly 5 digits and can never overflow, so this leniency is dead code
at the grammar level; the clamp itself is stated here at field level.) -/
theorem C8_partition_overflow_clamp (s : Str) (hne : s ≠ [])
    (hdig : s.all isDigitB = true) (hovf : 4294967295 < digitsToNat 10 digitVal s) :
    parsePartitionField s = 4294967295 := by
  have hempty : s.isEmpty = false := by
    cases s with
    | nil => exact absurd rfl hne
    | cons a l => rfl
  have hcond : (!s.isEmpty && s.all isDigitB
      && decide (digitsToNat 10 digitVal s < 4294967296)) = false := by
    rw [hempty, hdig]
    simp
    omega
  simp only [parsePartitionField, parseU32, hcond]
  rfl

/-- Witness for C8 at the first overflowing value, 2^32. -/
theorem C8_witness :
    ("4294967296".toList ≠ []) ∧ ("4294967296".toList.all isDigitB = true)
    ∧ 4294967295 < digitsToNat 10 digitVal "4294967296".toList
    ∧ parsePartitionField "4294967296".toList = 4294967295 :=
  ⟨by decide, by decide, by decide,
    C8_partition_overflow_clamp ("4294967296".toList) (by decide) (by decide) (by decide)⟩

/-- Claim C9: building from the empty collection yields a tree whose
root is an empty leaf, and flattening it yields the empty list. -/
theorem C9_empty_input :
    ∃ t, DeltaTree.from_paths [] = some t
      ∧ t.root = TreeNode.FileEntries []
      ∧ DeltaTree.files t = [] := by
  refine ⟨⟨TreeNode.FileEntries []⟩, rfl, rfl, ?_⟩
  show filesInSubtree [] (TreeNode.FileEntries []) = []
  rw [filesInSubtree_leaf, List.map_nil]

/-- Claim C10 (code bug): parse is not total over the regex language.
The cluster capture `777` matches `FILENAME_REGEX` (three decimal
digits) but `parse::<u8>().unwrap()` panics on it (`none` in the
model); the input is pure ASCII, where this scanner and the compiled
regex agree.  (The regex crate's `\d` is moreover Unicode `\p{Nd}`, so
the compiled regex also accepts digit fields written with non-ASCII
decimal digits, on which the same `unwrap` panics even for cluster
values below 256; those inputs lie outside this ASCII scanner.) -/
theorem C10_cluster_unwrap_panics :
    (filenameCaptures c10xName).isSome = true
    ∧ ParquetDeltaFile.from_string c10xName = none := by
  exact ⟨by decide, by decide⟩
